import Mathlib

/-!
Shallow embedding of `src/fsfrag-write.c`, the batched round-robin multi-file writer
`fsfrag-write`.

* `uint64_t` values are natural numbers below `U64`; every `uint64_t` addition and
  multiplication of the source is reduced modulo `U64`.
* Signed 64-bit values (`int64_t`, `long`, the fields of `struct timeval`) are integers;
  every signed 64-bit result of the source is reduced by `wrapInt64` (two's complement).
* A run of one process is modelled by the ordered list of calls it issues (`Event`),
  under the assumption that every MPI call returns `MPI_SUCCESS` and `malloc` succeeds
  (otherwise `MPI_CHECK` / `assert` abort the run).
* The `count` parameter of `MPI_File_write` has C type `int`. A write is recorded
  with the value that parameter receives: the `uint64_t` argument `write_files`
  passes, converted by `MPI_File_write_count`.
-/

namespace FsFrag

/-! ## Machine integers -/

/-- Modulus of `uint64_t` arithmetic. -/
def U64 : Nat := 2 ^ 64

/-- Value of an unsigned integer after conversion to the 32-bit signed type `int`
(two's complement, reduction modulo `2 ^ 32`). -/
def toInt32 (x : Nat) : Int :=
  if x % 2 ^ 32 < 2 ^ 31 then ((x % 2 ^ 32 : Nat) : Int)
  else ((x % 2 ^ 32 : Nat) : Int) - 2 ^ 32

/-- The value the `int count` parameter of `MPI_File_write` receives when the call
passes the `uint64_t` value `count`. -/
def MPI_File_write_count (count : Nat) : Int := toInt32 count

/-- Value of a `long` after the cast `(uint64_t)`. -/
def toUInt64 (v : Int) : Nat := (v % (2 : Int) ^ 64).toNat

/-! ## Calls issued by one process -/

/-- The two global timers of the program: `timer` and `timer_wo_open`. -/
inductive TimerId
  | timer
  | timer_wo_open
  deriving DecidableEq, Repr

/-- One observable call of a process.
* `fileOpen path f`: `MPI_File_open(MPI_COMM_SELF, path, ..., &files[f])`
* `fileWrite f off count`: `MPI_File_write(files[f], &buffer[off], count, MPI_BYTE, &status)`,
  `count` being the value the `int count` parameter receives
* `fileClose f`: `MPI_File_close(&files[f])`
* `barrier`: `MPI_Barrier(MPI_COMM_WORLD)`
* `timerStart t` / `timerStop t`: `timer_start(&t)` / `timer_stop(&t)`
* `progress idx total files`: the line `  - batch idx/total (files files per process)`
* `announce`: the line `Writing now to files...` -/
inductive Event
  | fileOpen (path : List Char) (f : Nat)
  | fileWrite (f : Nat) (off : Nat) (count : Int)
  | fileClose (f : Nat)
  | barrier
  | timerStart (t : TimerId)
  | timerStop (t : TimerId)
  | progress (idx total files : Nat)
  | announce
  deriving DecidableEq, Repr

/-! ## Batch planning in `main` -/

/-- The constant `nb_complete_batches` of `main`. -/
def nb_complete_batches (nb_files max_open_files : Nat) : Nat :=
  nb_files / max_open_files

/-- The constant `last_batch_files` of `main`. -/
def last_batch_files (nb_files max_open_files : Nat) : Nat :=
  nb_files % max_open_files

/-- The constant `nb_batches` of `main`:
`nb_complete_batches + (last_batch_files > 0)`. -/
def nb_batches (nb_files max_open_files : Nat) : Nat :=
  (nb_complete_batches nb_files max_open_files
    + (if last_batch_files nb_files max_open_files > 0 then 1 else 0)) % U64

/-- One step of the batch section of `main`: a progress line (printed by rank 0 only)
or a call `start_batch(rank, nb_files, first_id)`. -/
inductive Step
  | progress (idx total files : Nat)
  | batch (rank nb_files first_id : Nat)
  deriving DecidableEq, Repr

/-- The batch section of `main` (source lines 288-304): the loop over the complete
batches followed by the remainder batch. -/
def main_steps (rank nb_files max_open_files : Nat) : List Step :=
  (List.range (nb_complete_batches nb_files max_open_files)).flatMap (fun i =>
      (if rank = 0 then
        [Step.progress ((i + 1) % U64) (nb_batches nb_files max_open_files) max_open_files]
       else [])
      ++ [Step.batch rank max_open_files ((max_open_files * i) % U64)])
  ++ (if last_batch_files nb_files max_open_files ≠ 0 then
        (if rank = 0 then
          [Step.progress (nb_batches nb_files max_open_files)
            (nb_batches nb_files max_open_files)
            (last_batch_files nb_files max_open_files)]
         else [])
        ++ [Step.batch rank (last_batch_files nb_files max_open_files)
              ((max_open_files * nb_batches nb_files max_open_files) % U64)]
      else [])

/-- The `(first_id, count)` arguments of the `start_batch` calls of a step list,
in order. -/
def batches_of : List Step → List (Nat × Nat)
  | [] => []
  | Step.progress _ _ _ :: rest => batches_of rest
  | Step.batch _ c fid :: rest => (fid, c) :: batches_of rest

/-- The `(first_id, count)` arguments of the `start_batch` calls of `main`, in order. -/
def main_batches (rank nb_files max_open_files : Nat) : List (Nat × Nat) :=
  batches_of (main_steps rank nb_files max_open_files)

/-- The progress lines of a step list, in order, as `(idx, total, files)`. -/
def progress_of : List Step → List (Nat × Nat × Nat)
  | [] => []
  | Step.progress i t c :: rest => (i, t, c) :: progress_of rest
  | Step.batch _ _ _ :: rest => progress_of rest

/-- The file ids `first_id + i`, `0 ≤ i < count`, that `create_files` formats into
the paths of one batch. -/
def batch_ids (b : Nat × Nat) : List Nat :=
  (List.range b.2).map (fun i => (b.1 + i) % U64)

/-- All file ids opened by the batches of `main`, in order. -/
def main_file_ids (rank nb_files max_open_files : Nat) : List Nat :=
  (main_batches rank nb_files max_open_files).flatMap batch_ids

/-! ## Run parameters -/

/-- The limit `PATH_MAX` of `<limits.h>` (Linux value). -/
def PATH_MAX : Nat := 4096

/-- The global run parameters of the program (the variables `dest_path`, `nb_files`,
`file_size`, `block_size`, `max_open_files` and `timestamp`). -/
structure Globals where
  dest_path : List Char
  nb_files : Nat
  file_size : Nat
  block_size : Nat
  max_open_files : Nat
  timestamp : Nat
  deriving DecidableEq, Repr

/-- The initial values of the globals (`DEFAULT_FILES_PER_PROC`, `DEFAULT_FILE_SIZE`,
`DEFAULT_BLOCK_SIZE`, `DEFAULT_MAX_OPEN_FILES`; static storage is zero-initialised). -/
def defaults : Globals :=
  ⟨[], 100, 16777216, 131072, 200, 0⟩

/-! ## Option parsing -/

/-- The keys `parse_opt` switches on. -/
inductive Key
  | b
  | n
  | o
  | f
  | ARGP_KEY_ARG
  | ARGP_KEY_END
  | other
  deriving DecidableEq, Repr

/-- Outcome of one call of `parse_opt`: it returns `0` with updated globals, an
`assert` fails (the process aborts), `argp_usage` prints the usage message and exits,
or it returns `ARGP_ERR_UNKNOWN`. -/
inductive ParseResult
  | ok (g : Globals)
  | assert_failed
  | usage
  | ARGP_ERR_UNKNOWN
  deriving DecidableEq, Repr

/-- The function `parse_opt`. `parsed` is the value `atol(arg)` (a `long`), `arg` the
argument text and `arg_num` the field `state->arg_num`. -/
def parse_opt (key : Key) (parsed : Int) (arg : List Char) (arg_num : Nat)
    (g : Globals) : ParseResult :=
  match key with
  | Key.b =>
      let block_size := toUInt64 parsed
      if block_size > 0 then
        ParseResult.ok ⟨g.dest_path, g.nb_files, g.file_size, block_size,
          g.max_open_files, g.timestamp⟩
      else ParseResult.assert_failed
  | Key.n =>
      let nb_files := toUInt64 parsed
      if nb_files > 0 then
        ParseResult.ok ⟨g.dest_path, nb_files, g.file_size, g.block_size,
          g.max_open_files, g.timestamp⟩
      else ParseResult.assert_failed
  | Key.o =>
      let max_open_files := toUInt64 parsed
      if max_open_files > 0 then
        ParseResult.ok ⟨g.dest_path, g.nb_files, g.file_size, g.block_size,
          max_open_files, g.timestamp⟩
      else ParseResult.assert_failed
  | Key.f =>
      let file_size := toUInt64 parsed
      if file_size > 0 then
        ParseResult.ok ⟨g.dest_path, g.nb_files, file_size, g.block_size,
          g.max_open_files, g.timestamp⟩
      else ParseResult.assert_failed
  | Key.ARGP_KEY_ARG =>
      if arg_num = 0 then
        ParseResult.ok ⟨arg.take PATH_MAX, g.nb_files, g.file_size, g.block_size,
          g.max_open_files, g.timestamp⟩
      else ParseResult.ok g
  | Key.ARGP_KEY_END =>
      if arg_num ≠ 1 then ParseResult.usage else ParseResult.ok g
  | Key.other => ParseResult.ARGP_ERR_UNKNOWN

/-- The global a numeric option key stores into, read back from the globals. -/
def stored (key : Key) (g : Globals) : Nat :=
  match key with
  | Key.b => g.block_size
  | Key.n => g.nb_files
  | Key.o => g.max_open_files
  | Key.f => g.file_size
  | _ => 0

/-! ## File batch lifecycle -/

/-- Output of the conversion `%lu`: decimal digits. -/
def fmt_lu (n : Nat) : List Char := Nat.toDigits 10 n

/-- Output of the conversion `%d`: decimal digits, with a leading `-` for a negative
value. -/
def fmt_d (v : Int) : List Char :=
  match v with
  | Int.ofNat n => Nat.toDigits 10 n
  | Int.negSucc n => '-' :: Nat.toDigits 10 (n + 1)

/-- The complete output of the format `"%s/test-%lu-%d.%lu"` applied to
`dest_path, timestamp, rank, id`; `rank` is a `uint32_t` printed through `%d`. -/
def format_path (dest_path : List Char) (timestamp rank id : Nat) : List Char :=
  dest_path ++ ['/', 't', 'e', 's', 't', '-'] ++ fmt_lu timestamp ++ ['-']
    ++ fmt_d (toInt32 rank) ++ ['.'] ++ fmt_lu id

/-- The text `snprintf(buff, PATH_MAX, ...)` leaves in `buff`: at most `PATH_MAX - 1`
characters of the formatted output. -/
def snprintf_path (dest_path : List Char) (timestamp rank id : Nat) : List Char :=
  (format_path dest_path timestamp rank id).take (PATH_MAX - 1)

/-- The function `create_files`: one `MPI_File_open` per file of the batch. -/
def create_files (g : Globals) (rank nb_files first_id : Nat) : List Event :=
  (List.range nb_files).map (fun i =>
    Event.fileOpen (snprintf_path g.dest_path g.timestamp rank ((first_id + i) % U64)) i)

/-- The function `close_files`: one `MPI_File_close` per handle. -/
def close_files (nb_files : Nat) : List Event :=
  (List.range nb_files).map (fun i => Event.fileClose i)

/-- The function `write_files`: the full-block passes followed by the pass of the
last, partial block. -/
def write_files (g : Globals) (nb_files : Nat) : List Event :=
  let full_blocks := g.file_size / g.block_size
  (List.range full_blocks).flatMap (fun i =>
      (List.range nb_files).map (fun f =>
        Event.fileWrite f ((i * g.block_size) % U64)
          (MPI_File_write_count g.block_size)))
  ++ (let last_block_size := g.file_size % g.block_size
      if last_block_size ≠ 0 then
        (List.range nb_files).map (fun f =>
          Event.fileWrite f ((full_blocks * g.block_size) % U64)
            (MPI_File_write_count last_block_size))
      else [])

/-- The function `start_batch`. -/
def start_batch (g : Globals) (rank nb_files first_id : Nat) : List Event :=
  create_files g rank nb_files first_id
    ++ [Event.barrier, Event.timerStart TimerId.timer_wo_open]
    ++ write_files g nb_files
    ++ close_files nb_files
    ++ [Event.barrier, Event.timerStop TimerId.timer_wo_open]

/-- The calls issued by one step of the batch section of `main`. -/
def run_step (g : Globals) : Step → List Event
  | Step.progress i t c => [Event.progress i t c]
  | Step.batch rank c fid => start_batch g rank c fid

/-- The calls issued by a list of steps, in order. -/
def run_steps (g : Globals) (steps : List Step) : List Event :=
  steps.flatMap (run_step g)

/-- The calls `main` issues before its batch section (source lines 280-286). -/
def main_prologue (rank : Nat) : List Event :=
  [Event.barrier] ++ (if rank = 0 then [Event.announce] else [])
    ++ [Event.timerStart TimerId.timer]

/-- The timed section of `main` (source lines 280-306) as the list of calls issued by
the process of the given rank. -/
def main_trace (g : Globals) (rank : Nat) : List Event :=
  main_prologue rank
    ++ run_steps g (main_steps rank g.nb_files g.max_open_files)
    ++ [Event.timerStop TimerId.timer]

/-- Number of files held open after a list of calls: opens minus closes. -/
def held : List Event → Int
  | [] => 0
  | Event.fileOpen _ _ :: rest => held rest + 1
  | Event.fileClose _ :: rest => held rest - 1
  | _ :: rest => held rest

/-- The writes of a trace, in order, as `(handle, buffer offset, count)`. -/
def writes_of : List Event → List (Nat × Nat × Int)
  | [] => []
  | Event.fileWrite f off c :: rest => (f, off, c) :: writes_of rest
  | _ :: rest => writes_of rest

/-- The counts of the writes issued to handle `f`, in order. -/
def lengths_to {α : Type} (f : Nat) (ws : List (Nat × Nat × α)) : List α :=
  (ws.filter (fun w => w.1 = f)).map (fun w => w.2.2)

/-! ## Reporting -/

/-- The variable `total_bytes` of `main`: `nb_files * file_size * size` in
`uint64_t`. -/
def total_bytes (nb_files file_size size : Nat) : Nat :=
  (((nb_files * file_size) % U64) * size) % U64

/-- The variable `bw` printed by `main`: `0` when `timer_wo_open.elapsed` is `0`,
otherwise `total_bytes / (timer_wo_open.elapsed * 1000L)`, the divisor being converted
to `uint64_t`. The result is `none` when the divisor is `0` (division trap). -/
def bw (nb_files file_size size : Nat) (elapsed : Int) : Option Nat :=
  if elapsed ≠ 0 then
    (if toUInt64 (elapsed * 1000) = 0 then none
     else some (total_bytes nb_files file_size size / toUInt64 (elapsed * 1000)))
  else some 0

/-! ## The write order in the words of the specification -/

/-- The write sequence of `writeBatch` as the specification words it: for each block
index `k = 0 .. floor(file_size/block_size) - 1`, one write of `block_size` bytes from
buffer offset `k * block_size` to handle 0, 1, ..., `count - 1`; then, when
`file_size mod block_size` is nonzero, one write of the remaining bytes from offset
`floor(file_size/block_size) * block_size` to handle 0, 1, ..., `count - 1`.
Entries are `(handle, buffer offset, length)`. -/
def round_robin_writes (file_size block_size count : Nat) : List (Nat × Nat × Nat) :=
  (List.range (file_size / block_size)).flatMap (fun k =>
      (List.range count).map (fun f => (f, k * block_size, block_size)))
  ++ (if file_size % block_size ≠ 0 then
        (List.range count).map (fun f =>
          (f, file_size / block_size * block_size, file_size % block_size))
      else [])

/-- A write of the specification, `(handle, buffer offset, length)`, as the call
`MPI_File_write` receives it: the 64-bit length is converted to the `int count`
parameter. -/
def received (w : Nat × Nat × Nat) : Nat × Nat × Int :=
  (w.1, w.2.1, MPI_File_write_count w.2.2)

/-! ## Notions used in the statements -/

/-- Every initial segment of the trace holds between `lo` and `hi` open files. -/
def within (lo hi : Int) (t : List Event) : Prop :=
  ∀ k, lo ≤ held (t.take k) ∧ held (t.take k) ≤ hi

/-- The number a string of decimal digits denotes (the digits of `%lu` output read
back in base 10). -/
def decimal_value (ds : List Char) : Nat :=
  ds.foldl (fun acc c => acc * 10 + (c.toNat - 48)) 0

/-- A destination directory of 4078 characters: `/d` repeated 2039 times. -/
def long_dest_path : List Char := (List.replicate 2039 ['/', 'd']).flatten

/-! ## Timers -/

/-- Value of a 64-bit signed result: two's complement reduction into
`[-2^63, 2^63)`. -/
def wrapInt64 (x : Int) : Int := (x + 2 ^ 63) % 2 ^ 64 - 2 ^ 63

/-- A clock reading `struct timeval`: seconds and microseconds. -/
structure timeval where
  tv_sec : Int
  tv_usec : Int
  deriving DecidableEq, Repr

/-- The type `ptimer_t`: accumulated milliseconds and the pending start reading. -/
structure ptimer_t where
  elapsed : Int
  start : timeval
  deriving DecidableEq, Repr

/-- The function `timer_start`; `now` is the reading `gettimeofday` returns. -/
def timer_start (t : ptimer_t) (now : timeval) : ptimer_t :=
  ⟨t.elapsed, now⟩

/-- The number of milliseconds `timer_stop` adds to `elapsed`:
`((stop.tv_sec - start.tv_sec) * 1000L) + ((stop.tv_usec - start.tv_usec) / 1000L)`,
the division truncating toward zero. -/
def timer_increment (start stop : timeval) : Int :=
  wrapInt64 (wrapInt64 (wrapInt64 (stop.tv_sec - start.tv_sec) * 1000)
    + Int.tdiv (wrapInt64 (stop.tv_usec - start.tv_usec)) 1000)

/-- The function `timer_stop`; `stop` is the reading `gettimeofday` returns. -/
def timer_stop (t : ptimer_t) (stop : timeval) : ptimer_t :=
  ⟨wrapInt64 (t.elapsed + timer_increment t.start stop), t.start⟩

/-- The two global timers `timer` and `timer_wo_open`. -/
structure Timers where
  timer : ptimer_t
  timer_wo_open : ptimer_t
  deriving DecidableEq, Repr

/-- The timers at program start (static storage is zero-initialised). -/
def Timers.zero : Timers := ⟨⟨0, ⟨0, 0⟩⟩, ⟨0, ⟨0, 0⟩⟩⟩

/-- The effect of a trace on the two timers. Each `timer_start` / `timer_stop` of the
trace takes the next clock reading; `clock k` is the reading of the `k`-th such
call and `k` counts the calls made so far. -/
def run_timers (clock : Nat → timeval) : List Event → Nat → Timers → Timers
  | [], _, s => s
  | Event.timerStart TimerId.timer :: rest, k, s =>
      run_timers clock rest (k + 1) ⟨timer_start s.timer (clock k), s.timer_wo_open⟩
  | Event.timerStart TimerId.timer_wo_open :: rest, k, s =>
      run_timers clock rest (k + 1) ⟨s.timer, timer_start s.timer_wo_open (clock k)⟩
  | Event.timerStop TimerId.timer :: rest, k, s =>
      run_timers clock rest (k + 1) ⟨timer_stop s.timer (clock k), s.timer_wo_open⟩
  | Event.timerStop TimerId.timer_wo_open :: rest, k, s =>
      run_timers clock rest (k + 1) ⟨s.timer, timer_stop s.timer_wo_open (clock k)⟩
  | _ :: rest, k, s => run_timers clock rest k s

/-- The value printed in the line `Open time: %lu us`:
`timer.elapsed - timer_wo_open.elapsed`, read as an unsigned 64-bit number. -/
def open_time (s : Timers) : Nat :=
  toUInt64 (s.timer.elapsed - s.timer_wo_open.elapsed)

/-- The calls of a trace strictly between the first `timer_start(&timer_wo_open)` and
the `timer_stop(&timer_wo_open)` that follows it. -/
def timed_segment (t : List Event) : List Event :=
  ((t.dropWhile (fun e => decide (e ≠ Event.timerStart TimerId.timer_wo_open))).tail).takeWhile
    (fun e => decide (e ≠ Event.timerStop TimerId.timer_wo_open))

/-- The calls of a trace before the first `timer_start(&timer_wo_open)`. -/
def before_timed_segment (t : List Event) : List Event :=
  t.takeWhile (fun e => decide (e ≠ Event.timerStart TimerId.timer_wo_open))

/-- Six clock readings (seconds since the Epoch, microseconds) of a run of two batches:
start of the run, start and stop of the first write-only interval, start and stop
of the second, stop of the run; later calls read the last value again. -/
def sample_clock (k : Nat) : timeval :=
  match k with
  | 0 => ⟨1700000000, 1900⟩
  | 1 => ⟨1700000000, 2000⟩
  | 2 => ⟨1700000001, 1001⟩
  | 3 => ⟨1700000001, 1101⟩
  | 4 => ⟨1700000002, 102⟩
  | _ => ⟨1700000002, 202⟩

/-- The files of one complete run of a process: for every batch of `main` and every
handle `f` of the batch, the file id `first_id + f` that `create_files` opens on the
handle, paired with the lengths of the writes `write_files` issues to that handle. -/
def run_file_lengths (g : Globals) (rank : Nat) : List (Nat × List Int) :=
  (main_batches rank g.nb_files g.max_open_files).flatMap (fun b =>
    (List.range b.2).map (fun f =>
      ((b.1 + f) % U64, lengths_to f (writes_of (write_files g b.2)))))

/-- Reading `b` is not earlier than reading `a`. -/
def not_earlier (a b : timeval) : Bool :=
  decide (a.tv_sec < b.tv_sec ∨ (a.tv_sec = b.tv_sec ∧ a.tv_usec ≤ b.tv_usec))

/-- A clock reading in microseconds. -/
def micros (r : timeval) : Int := r.tv_sec * 1000000 + r.tv_usec

/-- A reading with microseconds in `[0, 1000000)` and seconds in `[0, 2^52)`. -/
def valid_reading (r : timeval) : Prop :=
  0 ≤ r.tv_usec ∧ r.tv_usec < 1000000 ∧ 0 ≤ r.tv_sec ∧ r.tv_sec < 2 ^ 52

/-- The write-only intervals `(start, stop)` follow one another in time inside the run
interval from `A` to `B`. -/
def nested (A : timeval) : List (timeval × timeval) → timeval → Prop
  | [], B => micros A ≤ micros B
  | p :: rest, B => micros A ≤ micros p.1 ∧ micros p.1 ≤ micros p.2 ∧ nested p.2 rest B

/-! ## Batch planner: auxiliary facts -/

theorem batches_of_append (a b : List Step) :
    batches_of (a ++ b) = batches_of a ++ batches_of b := by
  induction a with
  | nil => rfl
  | cons s rest ih => cases s <;> simp [batches_of, ih]

theorem progress_of_append (a b : List Step) :
    progress_of (a ++ b) = progress_of a ++ progress_of b := by
  induction a with
  | nil => rfl
  | cons s rest ih => cases s <;> simp [progress_of, ih]

theorem batches_of_loop (rank M T : Nat) (l : List Nat) :
    batches_of (l.flatMap (fun i =>
      (if rank = 0 then [Step.progress ((i + 1) % U64) T M] else [])
        ++ [Step.batch rank M ((M * i) % U64)]))
      = l.map (fun i => ((M * i) % U64, M)) := by
  induction l with
  | nil => rfl
  | cons i rest ih =>
    simp only [List.flatMap_cons, List.map_cons, batches_of_append, ih]
    by_cases h : rank = 0 <;> simp [h, batches_of]

theorem progress_of_loop (M T : Nat) (l : List Nat) :
    progress_of (l.flatMap (fun i =>
      (if (0 : Nat) = 0 then [Step.progress ((i + 1) % U64) T M] else [])
        ++ [Step.batch 0 M ((M * i) % U64)]))
      = l.map (fun i => ((i + 1) % U64, T, M)) := by
  induction l with
  | nil => rfl
  | cons i rest ih =>
    simp only [List.flatMap_cons, List.map_cons, progress_of_append, ih]
    simp [progress_of]
    simpa using ih

/-- The batches of `main` in closed form. -/
theorem main_batches_eq (rank N M : Nat) :
    main_batches rank N M
      = (List.range (N / M)).map (fun i => ((M * i) % U64, M))
        ++ (if N % M ≠ 0 then [((M * nb_batches N M) % U64, N % M)] else []) := by
  unfold main_batches main_steps
  rw [batches_of_append, batches_of_loop]
  simp only [nb_complete_batches, last_batch_files]
  by_cases hr : N % M = 0
  · simp [hr, batches_of]
  · by_cases h : rank = 0 <;> simp [hr, h, batches_of]

/-- The progress lines of rank 0 in closed form. -/
theorem main_progress_eq (N M : Nat) :
    progress_of (main_steps 0 N M)
      = (List.range (N / M)).map (fun i => ((i + 1) % U64, nb_batches N M, M))
        ++ (if N % M ≠ 0 then [(nb_batches N M, nb_batches N M, N % M)] else []) := by
  unfold main_steps
  rw [progress_of_append, progress_of_loop]
  simp only [nb_complete_batches, last_batch_files]
  by_cases hr : N % M = 0
  · simp [hr, progress_of]
  · simp [hr, progress_of]

theorem nb_batches_eq (N M : Nat) (hM : 0 < M) (hN64 : N < U64) :
    nb_batches N M = N / M + (if N % M ≠ 0 then 1 else 0) := by
  unfold nb_batches nb_complete_batches last_batch_files
  have hq : N / M ≤ N := Nat.div_le_self N M
  by_cases hr : N % M = 0
  · simp only [hr, lt_self_iff_false, if_false, ne_eq, not_true_eq_false, add_zero]
    exact Nat.mod_eq_of_lt (lt_of_le_of_lt hq hN64)
  · have hpos : N % M > 0 := Nat.pos_of_ne_zero hr
    simp only [hpos, if_true, ne_eq, hr, not_false_eq_true]
    apply Nat.mod_eq_of_lt
    have h1 : N / M + 1 ≤ N := by
      have hdm := Nat.div_add_mod N M
      have : N / M ≤ M * (N / M) := Nat.le_mul_of_pos_left _ hM
      omega
    omega

/-! ## Batch planner: claims -/

/-- C1 (the code departs from the claim): for N = 5 and M = 2 the batches `main` runs
are (first_id 0, count 2), (2, 2) and (6, 1), so the ids opened are 0, 1, 2, 3, 6:
id 4 of the range [0, 5) is never opened and id 6 lies outside the range. -/
theorem main_batches_five_two_skip_id (rank : Nat) :
    main_batches rank 5 2 = [(0, 2), (2, 2), (6, 1)]
    ∧ main_file_ids rank 5 2 = [0, 1, 2, 3, 6]
    ∧ 4 ∉ main_file_ids rank 5 2
    ∧ 6 ∈ main_file_ids rank 5 2 := by
  have h : main_batches rank 5 2 = [(0, 2), (2, 2), (6, 1)] := by
    rw [main_batches_eq]; decide
  have h2 : main_file_ids rank 5 2 = [0, 1, 2, 3, 6] := by
    unfold main_file_ids; rw [h]; decide
  refine ⟨h, h2, ?_, ?_⟩ <;> rw [h2] <;> decide

/-- C4: for N > 0 and M > 0 the batch sizes `main` runs are, in order, M repeated
floor(N/M) times followed by one batch of size N mod M exactly when N mod M is
nonzero; there is no remainder batch when N mod M = 0, and a single batch of size N
when N < M. -/
theorem main_batch_sizes (rank N M : Nat) (hN : 0 < N) (_hM : 0 < M) :
    (main_batches rank N M).map Prod.snd
        = List.replicate (N / M) M ++ (if N % M ≠ 0 then [N % M] else [])
    ∧ (N % M = 0 → (main_batches rank N M).map Prod.snd = List.replicate (N / M) M)
    ∧ (N < M → (main_batches rank N M).map Prod.snd = [N]) := by
  have h : (main_batches rank N M).map Prod.snd
        = List.replicate (N / M) M ++ (if N % M ≠ 0 then [N % M] else []) := by
    rw [main_batches_eq, List.map_append, List.map_map]
    congr 1
    · rw [List.eq_replicate_iff]
      simp
    · by_cases hr : N % M = 0 <;> simp [hr]
  refine ⟨h, ?_, ?_⟩
  · intro hr
    rw [h]; simp [hr]
  · intro hlt
    rw [h, Nat.div_eq_of_lt hlt, Nat.mod_eq_of_lt hlt]
    have : N ≠ 0 := Nat.pos_iff_ne_zero.mp hN
    simp [this]

/-- Witness of C4 at N = 5, M = 2: the sizes are [2, 2, 1]. -/
theorem main_batch_sizes_witness :
    (0 < 5 ∧ 0 < 2) ∧ (main_batches 0 5 2).map Prod.snd = [2, 2, 1] :=
  ⟨by decide, (main_batch_sizes 0 5 2 (by decide) (by decide)).1.trans (by decide)⟩

theorem ceil_div_eq (N M : Nat) (hN : 0 < N) (hM : 0 < M) :
    ⌈(N : ℚ) / (M : ℚ)⌉₊ = N / M + (if N % M ≠ 0 then 1 else 0) := by
  have hdm := Nat.div_add_mod N M
  have hlt := Nat.mod_lt N hM
  have hMq : (0 : ℚ) < (M : ℚ) := by exact_mod_cast hM
  by_cases hr : N % M = 0
  · simp only [hr, ne_eq, not_true_eq_false, if_false, add_zero]
    have hq : N / M ≠ 0 := by
      intro h0
      rw [h0, hr] at hdm
      omega
    rw [Nat.ceil_eq_iff hq]
    have hNeq : (N : ℚ) = (M : ℚ) * ((N / M : Nat) : ℚ) := by
      have : N = M * (N / M) := by omega
      exact_mod_cast this
    constructor
    · rw [lt_div_iff₀ hMq]
      have h1 : (N / M - 1) * M < N := by
        have hq1 : 1 ≤ N / M := Nat.one_le_iff_ne_zero.mpr hq
        have : (N / M - 1) * M + M = M * (N / M) := by
          rw [Nat.mul_comm M]
          calc (N / M - 1) * M + M = (N / M - 1 + 1) * M := by ring
            _ = N / M * M := by rw [Nat.sub_add_cancel hq1]
        omega
      exact_mod_cast h1
    · rw [div_le_iff₀ hMq]
      have h2 : N ≤ N / M * M := by
        rw [Nat.mul_comm]; omega
      exact_mod_cast h2
  · simp only [ne_eq, hr, not_false_eq_true, if_true]
    rw [Nat.ceil_eq_iff (Nat.succ_ne_zero _)]
    constructor
    · rw [lt_div_iff₀ hMq]
      have h1 : (N / M + 1 - 1) * M < N := by
        rw [Nat.add_sub_cancel, Nat.mul_comm]
        have : 0 < N % M := Nat.pos_of_ne_zero hr
        omega
      exact_mod_cast h1
    · rw [div_le_iff₀ hMq]
      have h2 : N ≤ (N / M + 1) * M := by
        have : (N / M + 1) * M = M * (N / M) + M := by ring
        omega
      exact_mod_cast h2

/-- C5: for N > 0 and M > 0 the number of batches `main` runs is ceil(N/M); it equals
the value `nb_batches` that `main` computes and prints as the total of each of its
progress lines (one line per batch on rank 0); every batch has a size between 1 and
M. -/
theorem main_batch_count (rank N M : Nat) (hN : 0 < N) (hM : 0 < M) (hN64 : N < U64) :
    (main_batches rank N M).length = ⌈(N : ℚ) / (M : ℚ)⌉₊
    ∧ (main_batches rank N M).length = nb_batches N M
    ∧ (progress_of (main_steps 0 N M)).length = nb_batches N M
    ∧ (∀ p ∈ progress_of (main_steps 0 N M), p.2.1 = nb_batches N M)
    ∧ (∀ b ∈ main_batches rank N M, 1 ≤ b.2 ∧ b.2 ≤ M) := by
  have hnb := nb_batches_eq N M hM hN64
  have hlen : (main_batches rank N M).length = N / M + (if N % M ≠ 0 then 1 else 0) := by
    rw [main_batches_eq]
    by_cases hr : N % M = 0 <;> simp [hr]
  refine ⟨?_, ?_, ?_, ?_, ?_⟩
  · rw [hlen, ceil_div_eq N M hN hM]
  · rw [hlen, hnb]
  · rw [main_progress_eq, hnb]
    by_cases hr : N % M = 0 <;> simp [hr]
  · intro p hp
    rw [main_progress_eq] at hp
    by_cases hr : N % M = 0
    · simp only [hr, ne_eq, not_true_eq_false, if_false, List.append_nil,
        List.mem_map] at hp
      obtain ⟨i, _, rfl⟩ := hp
      rfl
    · simp only [ne_eq, hr, not_false_eq_true, if_true, List.mem_append, List.mem_map,
        List.mem_singleton] at hp
      rcases hp with ⟨i, _, rfl⟩ | rfl <;> rfl
  · intro b hb
    rw [main_batches_eq] at hb
    have hlt := Nat.mod_lt N hM
    by_cases hr : N % M = 0
    · simp only [hr, ne_eq, not_true_eq_false, if_false, List.append_nil,
        List.mem_map] at hb
      obtain ⟨i, _, rfl⟩ := hb
      exact ⟨hM, le_refl _⟩
    · simp only [ne_eq, hr, not_false_eq_true, if_true, List.mem_append, List.mem_map,
        List.mem_singleton] at hb
      rcases hb with ⟨i, _, rfl⟩ | rfl
      · exact ⟨hM, le_refl _⟩
      · exact ⟨Nat.pos_of_ne_zero hr, le_of_lt hlt⟩

/-- Witness of C5 at N = 5, M = 2: three batches, ceil(5/2) = 3 = `nb_batches`, three
progress lines, and the remainder batch (first id 6, count 1) has a size between 1
and 2. -/
theorem main_batch_count_witness :
    (0 < 5 ∧ 0 < 2 ∧ 5 < U64)
    ∧ (main_batches 0 5 2).length = 3
    ∧ ⌈((5 : Nat) : ℚ) / ((2 : Nat) : ℚ)⌉₊ = 3
    ∧ nb_batches 5 2 = 3
    ∧ (progress_of (main_steps 0 5 2)).length = 3
    ∧ (1 ≤ ((6, 1) : Nat × Nat).2 ∧ ((6, 1) : Nat × Nat).2 ≤ 2) :=
  have h := main_batch_count 0 5 2 (by decide) (by decide) (by decide)
  ⟨by decide, by decide, h.1.symm.trans (by decide), by decide,
   h.2.2.1.trans (by decide), h.2.2.2.2 (6, 1) (by decide)⟩

/-! ## Round-robin writer: auxiliary facts -/

theorem writes_of_append (a b : List Event) :
    writes_of (a ++ b) = writes_of a ++ writes_of b := by
  induction a with
  | nil => rfl
  | cons e rest ih => cases e <;> simp [writes_of, ih]

theorem writes_of_pass (l : List Nat) (off : Nat) (len : Int) :
    writes_of (l.map (fun f => Event.fileWrite f off len))
      = l.map (fun f => (f, off, len)) := by
  induction l with
  | nil => rfl
  | cons f rest ih => simp [writes_of, ih]

theorem writes_of_passes (l : List Nat) (c bs : Nat) (cnt : Int)
    (hl : ∀ i ∈ l, i * bs < U64) :
    writes_of (l.flatMap (fun i =>
        (List.range c).map (fun f => Event.fileWrite f ((i * bs) % U64) cnt)))
      = l.flatMap (fun k => (List.range c).map (fun f => (f, k * bs, cnt))) := by
  induction l with
  | nil => rfl
  | cons i rest ih =>
    have hi : i * bs < U64 := hl i (List.mem_cons_self _ _)
    have hrest : ∀ j ∈ rest, j * bs < U64 := fun j hj => hl j (List.mem_cons_of_mem _ hj)
    simp only [List.flatMap_cons, writes_of_append, writes_of_pass, ih hrest,
      Nat.mod_eq_of_lt hi]

theorem full_block_offset_lt (fs bs i : Nat) (hfs : fs < U64) (hi : i ≤ fs / bs) :
    i * bs < U64 := by
  have h1 : i * bs ≤ fs / bs * bs := Nat.mul_le_mul_right bs hi
  have h2 : fs / bs * bs ≤ fs := Nat.div_mul_le_self fs bs
  omega

theorem map_received_passes (l : List Nat) (c bs : Nat) :
    (l.flatMap (fun k => (List.range c).map (fun f => (f, k * bs, bs)))).map received
      = l.flatMap (fun k =>
          (List.range c).map (fun f => (f, k * bs, MPI_File_write_count bs))) := by
  induction l with
  | nil => rfl
  | cons i rest ih =>
    simp only [List.flatMap_cons, List.map_append, ih, List.map_map]
    rfl

/-- The writes of `write_files` are the round-robin sequence of the specification,
each length converted to the `int` that `MPI_File_write` receives. -/
theorem writes_of_write_files (g : Globals) (count : Nat) (hfs : g.file_size < U64) :
    writes_of (write_files g count)
      = (round_robin_writes g.file_size g.block_size count).map received := by
  unfold write_files round_robin_writes
  simp only [writes_of_append, List.map_append]
  rw [writes_of_passes, map_received_passes]
  · congr 1
    by_cases hr : g.file_size % g.block_size = 0
    · simp [hr, writes_of]
    · simp only [ne_eq, hr, not_false_eq_true, if_true, writes_of_pass, List.map_map]
      rw [Nat.mod_eq_of_lt (full_block_offset_lt _ _ _ hfs (le_refl _))]
      rfl
  · intro i hi
    exact full_block_offset_lt _ _ _ hfs (le_of_lt (List.mem_range.mp hi))

theorem round_robin_writes_length_lt (fs bs count : Nat) (hbs : 0 < bs) :
    ∀ w ∈ round_robin_writes fs bs count, w.2.2 ≤ bs := by
  intro w hw
  unfold round_robin_writes at hw
  rcases List.mem_append.mp hw with h | h
  · obtain ⟨k, _, hkw⟩ := List.mem_flatMap.mp h
    obtain ⟨f, _, rfl⟩ := List.mem_map.mp hkw
    exact le_refl _
  · by_cases hr : fs % bs = 0
    · simp [hr] at h
    · simp only [ne_eq, hr, not_false_eq_true, if_true] at h
      obtain ⟨f, _, rfl⟩ := List.mem_map.mp h
      exact le_of_lt (Nat.mod_lt _ hbs)

/-- Below 2^31 the conversion to `int` keeps the value. -/
theorem MPI_File_write_count_of_lt (n : Nat) (h : n < 2 ^ 31) :
    MPI_File_write_count n = (n : Int) := by
  unfold MPI_File_write_count toInt32
  have h1 : n % 2 ^ 32 = n := Nat.mod_eq_of_lt (by omega)
  rw [h1, if_pos h]

/-- When block_size is below 2^31 every length reaches `MPI_File_write` unchanged: the
writes of `write_files` are the round-robin sequence of the specification. -/
theorem writes_of_write_files_small (g : Globals) (count : Nat)
    (hbs : 0 < g.block_size) (hbs31 : g.block_size < 2 ^ 31) (hfs : g.file_size < U64) :
    writes_of (write_files g count)
      = (round_robin_writes g.file_size g.block_size count).map
          (fun w => (w.1, w.2.1, (w.2.2 : Int))) := by
  rw [writes_of_write_files g count hfs]
  apply List.map_congr_left
  intro w hw
  have hle := round_robin_writes_length_lt _ _ _ hbs w hw
  unfold received
  rw [MPI_File_write_count_of_lt w.2.2 (by omega)]

theorem length_passes {α : Type} (F : Nat → Nat → α) (c q : Nat) :
    ((List.range q).flatMap (fun k => (List.range c).map (F k))).length = q * c := by
  induction q with
  | zero => simp
  | succ q ih =>
    rw [List.range_succ, List.flatMap_append, List.length_append, ih]
    simp [Nat.succ_mul]

theorem getElem?_passes {α : Type} (F : Nat → Nat → α) (c : Nat) :
    ∀ q j, j < q * c →
      ((List.range q).flatMap (fun k => (List.range c).map (F k)))[j]?
        = some (F (j / c) (j % c)) := by
  intro q
  induction q with
  | zero => intro j hj; simp at hj
  | succ q ih =>
    intro j hj
    rw [List.range_succ, List.flatMap_append]
    by_cases hlt : j < q * c
    · rw [List.getElem?_append_left (by rw [length_passes]; exact hlt)]
      exact ih j hlt
    · have hge : q * c ≤ j := Nat.le_of_not_lt hlt
      rw [List.getElem?_append_right (by rw [length_passes]; exact hge), length_passes]
      have hc : 0 < c := by
        rcases Nat.eq_zero_or_pos c with h0 | h0
        · subst h0; simp at hj
        · exact h0
      have hjc : j - q * c < c := by
        rw [Nat.succ_mul] at hj; omega
      have hdiv : j / c = q := by
        apply Nat.div_eq_of_lt_le
        · exact hge
        · rw [Nat.succ_mul]; rw [Nat.succ_mul] at hj; exact hj
      have hmod : j % c = j - q * c := by
        have := Nat.div_add_mod j c
        rw [hdiv, Nat.mul_comm] at this
        omega
      simp only [List.flatMap_singleton, List.getElem?_map]
      rw [List.getElem?_range hjc, hdiv, hmod]
      rfl

theorem filter_range_eq (f : Nat) (c : Nat) :
    (List.range c).filter (fun x => decide (x = f)) = if f < c then [f] else [] := by
  induction c with
  | zero => simp
  | succ c ih =>
    rw [List.range_succ, List.filter_append, ih]
    by_cases h1 : f < c
    · have h2 : ¬ c = f := by omega
      have h3 : f < c + 1 := by omega
      simp [h1, h2, h3]
    · by_cases h2 : c = f
      · subst h2; simp
      · have h3 : ¬ f < c + 1 := by omega
        simp [h1, h2, h3]

theorem lengths_to_append {α : Type} (f : Nat) (a b : List (Nat × Nat × α)) :
    lengths_to f (a ++ b) = lengths_to f a ++ lengths_to f b := by
  simp [lengths_to]

theorem lengths_to_map {α β : Type} (f : Nat) (h : α → β) (l : List (Nat × Nat × α)) :
    lengths_to f (l.map (fun w => (w.1, w.2.1, h w.2.2))) = (lengths_to f l).map h := by
  unfold lengths_to
  rw [List.filter_map, List.map_map, List.map_map]
  rfl

theorem lengths_to_pass {α : Type} (f c off : Nat) (len : α) (hf : f < c) :
    lengths_to f ((List.range c).map (fun x => (x, off, len))) = [len] := by
  unfold lengths_to
  rw [List.filter_map]
  have : ((fun w : Nat × Nat × α => decide (w.1 = f)) ∘ fun x => (x, off, len))
      = fun x => decide (x = f) := by
    funext x; rfl
  rw [this, filter_range_eq]
  simp [hf]

theorem lengths_to_passes (f c bs : Nat) (hf : f < c) (q : Nat) :
    lengths_to f ((List.range q).flatMap (fun k =>
        (List.range c).map (fun x => (x, k * bs, bs))))
      = List.replicate q bs := by
  induction q with
  | zero => rfl
  | succ q ih =>
    rw [List.range_succ, List.flatMap_append, lengths_to_append, ih,
      List.flatMap_singleton, lengths_to_pass f c _ _ hf, List.replicate_succ']

/-- The lengths the specification gives to one handle: block_size repeated
floor(file_size/block_size) times, then file_size mod block_size when nonzero; they
sum to file_size. -/
theorem lengths_to_round_robin (fs bs count f : Nat) (hf : f < count) :
    lengths_to f (round_robin_writes fs bs count)
        = List.replicate (fs / bs) bs ++ (if fs % bs ≠ 0 then [fs % bs] else [])
    ∧ (lengths_to f (round_robin_writes fs bs count)).sum = fs := by
  have hl : lengths_to f (round_robin_writes fs bs count)
        = List.replicate (fs / bs) bs ++ (if fs % bs ≠ 0 then [fs % bs] else []) := by
    unfold round_robin_writes
    rw [lengths_to_append, lengths_to_passes f count _ hf]
    congr 1
    by_cases hr : fs % bs = 0
    · simp [hr, lengths_to]
    · simp only [ne_eq, hr, not_false_eq_true, if_true]
      exact lengths_to_pass f count _ _ hf
  refine ⟨hl, ?_⟩
  rw [hl, List.sum_append, List.sum_replicate, smul_eq_mul]
  have hdm := Nat.div_add_mod fs bs
  by_cases hr : fs % bs = 0
  · simp only [hr, ne_eq, not_true_eq_false, if_false, List.sum_nil, add_zero]
    rw [Nat.mul_comm]; omega
  · simp only [ne_eq, hr, not_false_eq_true, if_true, List.sum_cons, List.sum_nil,
      add_zero]
    rw [Nat.mul_comm]; omega

theorem writes_only (t : List Event)
    (h : ∀ e ∈ t, ∃ f off c, e = Event.fileWrite f off c) :
    (writes_of t).map (fun w => Event.fileWrite w.1 w.2.1 w.2.2) = t := by
  induction t with
  | nil => rfl
  | cons e rest ih =>
    obtain ⟨f, off, c, rfl⟩ := h e (List.mem_cons_self _ _)
    simp only [writes_of, List.map_cons]
    rw [ih (fun e he => h e (List.mem_cons_of_mem _ he))]

theorem write_files_writes_only (g : Globals) (count : Nat) :
    ∀ e ∈ write_files g count, ∃ f off c, e = Event.fileWrite f off c := by
  intro e he
  unfold write_files at he
  simp only [List.mem_append, List.mem_flatMap, List.mem_map] at he
  rcases he with ⟨i, _, f, _, rfl⟩ | he
  · exact ⟨_, _, _, rfl⟩
  · by_cases hr : g.file_size % g.block_size = 0
    · simp [hr] at he
    · simp only [ne_eq, hr, not_false_eq_true, if_true, List.mem_map] at he
      obtain ⟨f, _, rfl⟩ := he
      exact ⟨_, _, _, rfl⟩

/-! ## Round-robin writer: block sizes below 2^31 -/

/-- When block_size is below 2^31, the calls `write_files` issues for a batch of
`count` handles are exactly the writes of the round-robin sequence of the
specification; write number j of the full-block part goes to handle j mod count and
carries block j / count. -/
theorem write_files_round_robin_small (g : Globals) (count : Nat)
    (hbs : 0 < g.block_size) (hbs31 : g.block_size < 2 ^ 31) (hfs64 : g.file_size < U64) :
    write_files g count
        = (round_robin_writes g.file_size g.block_size count).map
            (fun w => Event.fileWrite w.1 w.2.1 (w.2.2 : Int))
    ∧ (∀ j, j < g.file_size / g.block_size * count →
        (writes_of (write_files g count))[j]?
          = some (j % count, j / count * g.block_size, (g.block_size : Int))) := by
  have hw := writes_of_write_files_small g count hbs hbs31 hfs64
  refine ⟨?_, ?_⟩
  · have h := (writes_only _ (write_files_writes_only g count)).symm
    rw [hw, List.map_map] at h
    exact h
  · intro j hj
    rw [hw, List.getElem?_map]
    unfold round_robin_writes
    rw [List.getElem?_append_left (by rw [length_passes]; exact hj),
      getElem?_passes (fun k f => (f, k * g.block_size, g.block_size)) count _ j hj]
    rfl

/-- When block_size is below 2^31, every handle of the batch receives
floor(file_size/block_size) writes of block_size bytes followed by one write of
file_size mod block_size bytes exactly when that remainder is nonzero, and the lengths
sum to file_size. -/
theorem write_files_lengths_small (g : Globals) (count f : Nat)
    (hbs : 0 < g.block_size) (hbs31 : g.block_size < 2 ^ 31) (hfs64 : g.file_size < U64)
    (hf : f < count) :
    lengths_to f (writes_of (write_files g count))
        = (List.replicate (g.file_size / g.block_size) g.block_size
          ++ (if g.file_size % g.block_size ≠ 0 then [g.file_size % g.block_size]
              else [])).map (fun n : Nat => (n : Int))
    ∧ (lengths_to f (writes_of (write_files g count))).sum = (g.file_size : Int) := by
  have hw := writes_of_write_files_small g count hbs hbs31 hfs64
  have hr := lengths_to_round_robin g.file_size g.block_size count f hf
  have hl : lengths_to f (writes_of (write_files g count))
      = (lengths_to f (round_robin_writes g.file_size g.block_size count)).map
          (fun n : Nat => (n : Int)) := by
    rw [hw]
    exact lengths_to_map f (fun n : Nat => (n : Int)) _
  refine ⟨by rw [hl, hr.1], ?_⟩
  have hsum := @Nat.cast_list_sum Int _
    (lengths_to f (round_robin_writes g.file_size g.block_size count))
  rw [hr.2] at hsum
  rw [hl, hsum]

/-! ## Round-robin writer: claims -/

/-- C2 (the code departs from the claim): with file_size = 2^33, block_size = 2^32 and
two handles, the claim asks for two passes of writes of 4294967296 bytes each. The
calls `write_files` issues go to handles 0, 1, 0, 1 at offsets 0, 0, 2^32, 2^32, but
every call receives the count 0: the 64-bit block_size does not fit the `int count`
parameter of `MPI_File_write`. -/
theorem write_files_round_robin_narrowed :
    write_files ⟨[], 2, 2 ^ 33, 2 ^ 32, 2, 0⟩ 2
        = [Event.fileWrite 0 0 0, Event.fileWrite 1 0 0,
           Event.fileWrite 0 4294967296 0, Event.fileWrite 1 4294967296 0]
    ∧ round_robin_writes (2 ^ 33) (2 ^ 32) 2
        = [(0, 0, 4294967296), (1, 0, 4294967296),
           (0, 4294967296, 4294967296), (1, 4294967296, 4294967296)] := by
  decide

/-- C3 (the code departs from the claim): with file_size = 2^32 + 100 and block_size =
2^32 the claim asks for one write of 4294967296 bytes and one of 100 bytes per handle,
4294967396 bytes in total. The two calls `write_files` issues to handle 0 receive the
counts 0 and 100, which sum to 100. -/
theorem write_files_lengths_narrowed :
    lengths_to 0 (writes_of (write_files ⟨[], 1, 2 ^ 32 + 100, 2 ^ 32, 1, 0⟩ 1))
        = [0, 100]
    ∧ (lengths_to 0 (writes_of (write_files ⟨[], 1, 2 ^ 32 + 100, 2 ^ 32, 1, 0⟩ 1))).sum
        = 100
    ∧ lengths_to 0 (round_robin_writes (2 ^ 32 + 100) (2 ^ 32) 1) = [4294967296, 100]
    ∧ (100 : Int) ≠ ((2 ^ 32 + 100 : Nat) : Int) := by
  decide

/-! ## Open-file accounting: auxiliary facts -/

theorem held_append (a b : List Event) : held (a ++ b) = held a + held b := by
  induction a with
  | nil => simp [held]
  | cons e rest ih => cases e <;> simp [held, ih] <;> ring

theorem held_opens (l : List Event) (h : ∀ e ∈ l, ∃ p f, e = Event.fileOpen p f) :
    held l = l.length := by
  induction l with
  | nil => rfl
  | cons e rest ih =>
    obtain ⟨p, f, rfl⟩ := h e (List.mem_cons_self _ _)
    simp only [held, List.length_cons, ih (fun e he => h e (List.mem_cons_of_mem _ he))]
    push_cast; ring

theorem held_closes (l : List Event) (h : ∀ e ∈ l, ∃ f, e = Event.fileClose f) :
    held l = - (l.length : Int) := by
  induction l with
  | nil => rfl
  | cons e rest ih =>
    obtain ⟨f, rfl⟩ := h e (List.mem_cons_self _ _)
    simp only [held, List.length_cons, ih (fun e he => h e (List.mem_cons_of_mem _ he))]
    push_cast; ring

theorem held_neutral (l : List Event)
    (h : ∀ e ∈ l, (∀ p f, e ≠ Event.fileOpen p f) ∧ (∀ f, e ≠ Event.fileClose f)) :
    held l = 0 := by
  induction l with
  | nil => rfl
  | cons e rest ih =>
    have he := h e (List.mem_cons_self _ _)
    have hrest := ih (fun e he => h e (List.mem_cons_of_mem _ he))
    cases e with
    | fileOpen p f => exact absurd rfl (he.1 p f)
    | fileClose f => exact absurd rfl (he.2 f)
    | _ => simpa [held] using hrest

theorem within_append (lo hi : Int) (a b : List Event)
    (ha : within lo hi a) (hb : within (lo - held a) (hi - held a) b) :
    within lo hi (a ++ b) := by
  intro k
  rw [List.take_append_eq_append_take, held_append]
  by_cases hk : k ≤ a.length
  · have h0 : k - a.length = 0 := Nat.sub_eq_zero_of_le hk
    rw [h0, List.take_zero]
    simpa [held] using ha k
  · have hfull : a.take k = a := List.take_of_length_le (by omega)
    rw [hfull]
    have := hb (k - a.length)
    constructor <;> linarith [this.1, this.2]

theorem within_opens (l : List Event) (h : ∀ e ∈ l, ∃ p f, e = Event.fileOpen p f) :
    within 0 l.length l := by
  intro k
  have hk : ∀ e ∈ l.take k, ∃ p f, e = Event.fileOpen p f :=
    fun e he => h e (List.mem_of_mem_take he)
  rw [held_opens _ hk, List.length_take]
  constructor
  · exact Int.natCast_nonneg _
  · exact_mod_cast Nat.min_le_right k l.length

theorem within_closes (l : List Event) (h : ∀ e ∈ l, ∃ f, e = Event.fileClose f) :
    within (- (l.length : Int)) 0 l := by
  intro k
  have hk : ∀ e ∈ l.take k, ∃ f, e = Event.fileClose f :=
    fun e he => h e (List.mem_of_mem_take he)
  rw [held_closes _ hk, List.length_take]
  have h1 : ((min k l.length : Nat) : Int) ≤ (l.length : Int) := by
    exact_mod_cast Nat.min_le_right k l.length
  have h2 : (0 : Int) ≤ ((min k l.length : Nat) : Int) := Int.natCast_nonneg _
  constructor <;> linarith

theorem within_neutral (l : List Event)
    (h : ∀ e ∈ l, (∀ p f, e ≠ Event.fileOpen p f) ∧ (∀ f, e ≠ Event.fileClose f)) :
    within 0 0 l := by
  intro k
  rw [held_neutral _ (fun e he => h e (List.mem_of_mem_take he))]
  exact ⟨le_refl _, le_refl _⟩

theorem within_mono (lo hi lo2 hi2 : Int) (l : List Event) (h : within lo hi l)
    (h1 : lo2 ≤ lo) (h2 : hi ≤ hi2) : within lo2 hi2 l :=
  fun k => ⟨le_trans h1 (h k).1, le_trans (h k).2 h2⟩

theorem create_files_opens (g : Globals) (rank c fid : Nat) :
    ∀ e ∈ create_files g rank c fid, ∃ p f, e = Event.fileOpen p f := by
  intro e he
  unfold create_files at he
  obtain ⟨i, _, rfl⟩ := List.mem_map.mp he
  exact ⟨_, _, rfl⟩

theorem close_files_closes (c : Nat) :
    ∀ e ∈ close_files c, ∃ f, e = Event.fileClose f := by
  intro e he
  unfold close_files at he
  obtain ⟨i, _, rfl⟩ := List.mem_map.mp he
  exact ⟨_, rfl⟩

theorem write_files_neutral (g : Globals) (c : Nat) :
    ∀ e ∈ write_files g c,
      (∀ p f, e ≠ Event.fileOpen p f) ∧ (∀ f, e ≠ Event.fileClose f) := by
  intro e he
  obtain ⟨f, off, n, rfl⟩ := write_files_writes_only g c e he
  exact ⟨fun _ _ h => Event.noConfusion h, fun _ h => Event.noConfusion h⟩

theorem create_files_length (g : Globals) (rank c fid : Nat) :
    (create_files g rank c fid).length = c := by
  simp [create_files]

theorem close_files_length (c : Nat) : (close_files c).length = c := by
  simp [close_files]

theorem start_batch_assoc (g : Globals) (rank c fid : Nat) :
    start_batch g rank c fid
      = create_files g rank c fid
        ++ ([Event.barrier, Event.timerStart TimerId.timer_wo_open]
        ++ (write_files g c
        ++ (close_files c
        ++ [Event.barrier, Event.timerStop TimerId.timer_wo_open]))) := by
  simp [start_batch]

/-- One batch holds between 0 and `c` files at every point and none at its end. -/
theorem start_batch_within (g : Globals) (rank c fid : Nat) :
    within 0 c (start_batch g rank c fid) ∧ held (start_batch g rank c fid) = 0 := by
  have hA := within_opens _ (create_files_opens g rank c fid)
  have hAh := held_opens _ (create_files_opens g rank c fid)
  have hC := within_closes _ (close_files_closes c)
  have hCh := held_closes _ (close_files_closes c)
  have hW := within_neutral _ (write_files_neutral g c)
  have hWh := held_neutral _ (write_files_neutral g c)
  rw [create_files_length] at hA hAh
  rw [close_files_length] at hC hCh
  have hB : within 0 0 [Event.barrier, Event.timerStart TimerId.timer_wo_open] := by
    apply within_neutral
    intro e he
    simp only [List.mem_cons, List.mem_singleton, List.not_mem_nil, or_false] at he
    rcases he with rfl | rfl <;>
      exact ⟨fun _ _ h => Event.noConfusion h, fun _ h => Event.noConfusion h⟩
  have hE : within 0 0 [Event.barrier, Event.timerStop TimerId.timer_wo_open] := by
    apply within_neutral
    intro e he
    simp only [List.mem_cons, List.mem_singleton, List.not_mem_nil, or_false] at he
    rcases he with rfl | rfl <;>
      exact ⟨fun _ _ h => Event.noConfusion h, fun _ h => Event.noConfusion h⟩
  have hc0 : (0 : Int) ≤ (c : Int) := Int.natCast_nonneg c
  rw [start_batch_assoc]
  constructor
  · apply within_append _ _ _ _ hA
    rw [hAh]
    apply within_append _ _ _ _
      (within_mono _ _ _ _ _ hB (by linarith) (by linarith))
    have hBh : held [Event.barrier, Event.timerStart TimerId.timer_wo_open] = 0 := rfl
    rw [hBh]
    apply within_append _ _ _ _
      (within_mono _ _ _ _ _ hW (by linarith) (by linarith))
    rw [hWh]
    apply within_append _ _ _ _
      (within_mono _ _ _ _ _ hC (by linarith) (by linarith))
    rw [hCh]
    exact within_mono _ _ _ _ _ hE (by linarith) (by linarith)
  · simp only [held_append, hAh, hWh, hCh]
    simp [held]

theorem run_steps_append (g : Globals) (a b : List Step) :
    run_steps g (a ++ b) = run_steps g a ++ run_steps g b := by
  simp [run_steps, List.flatMap_append]

theorem run_steps_within (g : Globals) (M : Nat) (steps : List Step)
    (h : ∀ s ∈ steps, ∀ r c fid, s = Step.batch r c fid → c ≤ M) :
    within 0 M (run_steps g steps) ∧ held (run_steps g steps) = 0 := by
  induction steps with
  | nil =>
    refine ⟨fun k => ?_, rfl⟩
    simp [run_steps, held]
  | cons s rest ih =>
    have hrest := ih (fun s hs => h s (List.mem_cons_of_mem _ hs))
    have hs : within 0 M (run_step g s) ∧ held (run_step g s) = 0 := by
      cases s with
      | progress i t c =>
        refine ⟨fun k => ?_, rfl⟩
        cases k <;> simp [run_step, held]
      | batch r c fid =>
        have hc : c ≤ M := h _ (List.mem_cons_self _ _) r c fid rfl
        have hb := start_batch_within g r c fid
        exact ⟨within_mono _ _ _ _ _ hb.1 (le_refl _) (by exact_mod_cast hc), hb.2⟩
    have hcons : run_steps g (s :: rest) = run_step g s ++ run_steps g rest := by
      simp [run_steps]
    rw [hcons]
    constructor
    · apply within_append _ _ _ _ hs.1
      rw [hs.2]
      simpa using hrest.1
    · rw [held_append, hs.2, hrest.2]; rfl

theorem main_steps_counts (rank N M : Nat) (hM : 0 < M) :
    ∀ s ∈ main_steps rank N M, ∀ r c fid, s = Step.batch r c fid → c ≤ M := by
  intro s hs r c fid hsc
  subst hsc
  unfold main_steps at hs
  simp only [List.mem_append, List.mem_flatMap] at hs
  rcases hs with ⟨i, _, hi⟩ | hs
  · by_cases h0 : rank = 0 <;> simp [h0] at hi <;> omega
  · have hlt := Nat.mod_lt N hM
    by_cases hr : last_batch_files N M = 0
    · simp [hr] at hs
    · unfold last_batch_files at hr hs
      by_cases h0 : rank = 0 <;> simp [h0, hr] at hs <;> omega

theorem held_main_prologue (rank : Nat) :
    within 0 0 (main_prologue rank) ∧ held (main_prologue rank) = 0 := by
  unfold main_prologue
  by_cases h0 : rank = 0
  · simp only [h0, if_true]
    refine ⟨?_, rfl⟩
    apply within_neutral
    intro e he
    simp only [List.cons_append, List.nil_append, List.mem_cons, List.mem_singleton,
      List.not_mem_nil, or_false] at he
    rcases he with rfl | rfl | rfl <;>
      exact ⟨fun _ _ h => Event.noConfusion h, fun _ h => Event.noConfusion h⟩
  · simp only [h0, if_false]
    refine ⟨?_, rfl⟩
    apply within_neutral
    intro e he
    simp only [List.cons_append, List.nil_append, List.mem_cons, List.mem_singleton,
      List.not_mem_nil, or_false] at he
    rcases he with rfl | rfl <;>
      exact ⟨fun _ _ h => Event.noConfusion h, fun _ h => Event.noConfusion h⟩

/-! ## Open-file accounting: claim -/

/-- C7: for N > 0 and M > 0, in the trace of calls that `main` produces by running
`start_batch` for each batch, every initial segment has a number of open files
(opens minus closes) between 0 and M; the number is 0 at the end of each step of the
batch section (so between any two batches) and at the end of the run. -/
theorem main_open_files_bounded (g : Globals) (rank : Nat)
    (_hN : 0 < g.nb_files) (hM : 0 < g.max_open_files) :
    (∀ k, 0 ≤ held ((main_trace g rank).take k)
        ∧ held ((main_trace g rank).take k) ≤ (g.max_open_files : Int))
    ∧ (∀ j,
        (main_trace g rank).take
            (main_prologue rank
              ++ run_steps g
                  ((main_steps rank g.nb_files g.max_open_files).take j)).length
          = main_prologue rank
              ++ run_steps g ((main_steps rank g.nb_files g.max_open_files).take j)
        ∧ held (main_prologue rank
              ++ run_steps g ((main_steps rank g.nb_files g.max_open_files).take j))
            = 0)
    ∧ held (main_trace g rank) = 0 := by
  have hcounts := main_steps_counts rank g.nb_files g.max_open_files hM
  have hP := held_main_prologue rank
  have hR := run_steps_within g g.max_open_files _ hcounts
  have hM0 : (0 : Int) ≤ (g.max_open_files : Int) := Int.natCast_nonneg _
  refine ⟨?_, ?_, ?_⟩
  · have hw : within 0 g.max_open_files (main_trace g rank) := by
      unfold main_trace
      rw [List.append_assoc]
      apply within_append _ _ _ _ (within_mono _ _ _ _ _ hP.1 (le_refl _) hM0)
      rw [hP.2]
      apply within_append _ _ _ _ (by simpa using hR.1)
      rw [hR.2]
      intro k
      cases k <;> simp [held]
    exact hw
  · intro j
    constructor
    · have hsplit : main_trace g rank
          = (main_prologue rank
              ++ run_steps g ((main_steps rank g.nb_files g.max_open_files).take j))
            ++ (run_steps g ((main_steps rank g.nb_files g.max_open_files).drop j)
              ++ [Event.timerStop TimerId.timer]) := by
        unfold main_trace
        conv_lhs => rw [← List.take_append_drop j
          (main_steps rank g.nb_files g.max_open_files)]
        rw [run_steps_append]
        simp only [List.append_assoc]
      rw [hsplit, List.take_left']
      rfl
    · have hj := run_steps_within g g.max_open_files
        ((main_steps rank g.nb_files g.max_open_files).take j)
        (fun s hs => hcounts s (List.mem_of_mem_take hs))
      rw [held_append, hP.2, hj.2]; rfl
  · unfold main_trace
    rw [held_append, held_append, hP.2, hR.2]
    rfl

/-- Witness of C7 at N = 5, M = 2 (file size 1000, block size 300): after the first 6
calls of the trace, and after the first 30, between 0 and 2 files are open; none is
open at the end of the run. -/
theorem main_open_files_bounded_witness :
    (0 < 5 ∧ 0 < 2)
    ∧ (0 ≤ held ((main_trace ⟨['d'], 5, 1000, 300, 2, 7⟩ 0).take 6)
        ∧ held ((main_trace ⟨['d'], 5, 1000, 300, 2, 7⟩ 0).take 6) ≤ ((2 : Nat) : Int))
    ∧ (0 ≤ held ((main_trace ⟨['d'], 5, 1000, 300, 2, 7⟩ 0).take 30)
        ∧ held ((main_trace ⟨['d'], 5, 1000, 300, 2, 7⟩ 0).take 30) ≤ ((2 : Nat) : Int))
    ∧ held (main_trace ⟨['d'], 5, 1000, 300, 2, 7⟩ 0) = 0 :=
  have h := main_open_files_bounded ⟨['d'], 5, 1000, 300, 2, 7⟩ 0 (by decide) (by decide)
  ⟨by decide, h.1 6, h.1 30, h.2.2⟩

/-! ## Option parsing -/

theorem toUInt64_of_pos (v : Int) (h0 : 0 < v) (h1 : v < 2 ^ 63) :
    toUInt64 v = v.toNat ∧ 0 < toUInt64 v := by
  unfold toUInt64
  have h : v % (2 : Int) ^ 64 = v := Int.emod_eq_of_lt (le_of_lt h0) (by omega)
  rw [h]
  exact ⟨rfl, by omega⟩

theorem toUInt64_of_neg (v : Int) (h0 : v < 0) (h1 : -2 ^ 63 ≤ v) :
    toUInt64 v = (v + 2 ^ 64).toNat ∧ 0 < toUInt64 v := by
  unfold toUInt64
  have h : v % (2 : Int) ^ 64 = v + 2 ^ 64 := by
    rw [← Int.add_mul_emod_self_left v (2 ^ 64) 1, mul_one]
    exact Int.emod_eq_of_lt (by omega) (by omega)
  rw [h]
  exact ⟨rfl, by omega⟩

/-- A numeric option whose argument parses to 0 fails the `assert`. -/
theorem parse_opt_rejects_zero (key : Key) (arg : List Char) (arg_num : Nat) (g : Globals)
    (hk : key = Key.b ∨ key = Key.n ∨ key = Key.o ∨ key = Key.f) :
    parse_opt key 0 arg arg_num g = ParseResult.assert_failed := by
  rcases hk with rfl | rfl | rfl | rfl <;> rfl

/-- A numeric option whose argument parses to a positive `long` is accepted and the
value is stored. -/
theorem parse_opt_accepts_positive (key : Key) (v : Int) (arg : List Char)
    (arg_num : Nat) (g : Globals)
    (hk : key = Key.b ∨ key = Key.n ∨ key = Key.o ∨ key = Key.f)
    (h0 : 0 < v) (h1 : v < 2 ^ 63) :
    ∃ g2, parse_opt key v arg arg_num g = ParseResult.ok g2
      ∧ (stored key g2 : Int) = v := by
  obtain ⟨hval, hpos⟩ := toUInt64_of_pos v h0 h1
  have hcast : ((toUInt64 v : Nat) : Int) = v := by
    rw [hval]; exact Int.toNat_of_nonneg (le_of_lt h0)
  rcases hk with rfl | rfl | rfl | rfl <;>
    exact ⟨_, if_pos hpos, hcast⟩

/-- A numeric option whose argument parses to a negative `long` passes the `assert`:
the value stored is the argument plus 2^64. -/
theorem parse_opt_accepts_negative (key : Key) (v : Int) (arg : List Char)
    (arg_num : Nat) (g : Globals)
    (hk : key = Key.b ∨ key = Key.n ∨ key = Key.o ∨ key = Key.f)
    (h0 : v < 0) (h1 : -2 ^ 63 ≤ v) :
    ∃ g2, parse_opt key v arg arg_num g = ParseResult.ok g2
      ∧ (stored key g2 : Int) = v + 2 ^ 64 := by
  obtain ⟨hval, hpos⟩ := toUInt64_of_neg v h0 h1
  have hcast : ((toUInt64 v : Nat) : Int) = v + 2 ^ 64 := by
    rw [hval]; exact Int.toNat_of_nonneg (by omega)
  rcases hk with rfl | rfl | rfl | rfl <;>
    exact ⟨_, if_pos hpos, hcast⟩

/-- C8 (the code departs from the claim): when the argument of a numeric option parses
to -1, `parse_opt` does not reject it: for each of -b, -n, -o and -f it returns 0 and
stores 18446744073709551615 (the value after the cast to `uint64_t`, which passes the
`assert`). -/
theorem parse_opt_minus_one_accepted :
    parse_opt Key.b (-1) ['-', '1'] 0 defaults
        = ParseResult.ok ⟨[], 100, 16777216, 18446744073709551615, 200, 0⟩
    ∧ parse_opt Key.n (-1) ['-', '1'] 0 defaults
        = ParseResult.ok ⟨[], 18446744073709551615, 16777216, 131072, 200, 0⟩
    ∧ parse_opt Key.o (-1) ['-', '1'] 0 defaults
        = ParseResult.ok ⟨[], 100, 16777216, 131072, 18446744073709551615, 0⟩
    ∧ parse_opt Key.f (-1) ['-', '1'] 0 defaults
        = ParseResult.ok ⟨[], 100, 18446744073709551615, 131072, 200, 0⟩ := by
  decide

/-! ## Reported bandwidth -/

/-- C9 (the claim as stated fails): with 2^32 files per process of 2^32 bytes each, one
process and a write-only time of 1 ms, `total_bytes` wraps around to 0 and the
bandwidth reported is 0, not (2^32 x 1 x 2^32) / (1 x 1000). -/
theorem bw_total_bytes_wraps :
    bw (2 ^ 32) (2 ^ 32) 1 1 = some 0
    ∧ bw (2 ^ 32) (2 ^ 32) 1 1 ≠ some (2 ^ 32 * 1 * 2 ^ 32 / (1 * 1000)) := by
  decide

/-- C9 (amended): when files_per_process x file_size x process_count is below 2^64 and
the write-only elapsed time e (milliseconds) is positive with e x 1000 below 2^63, the
bandwidth reported is the integer quotient of total_bytes by e x 1000, where
total_bytes = files_per_process x process_count x file_size. -/
theorem bw_eq_quotient (N fs P : Nat) (e : Int)
    (he : 0 < e) (hd : e * 1000 < 2 ^ 63) (hb : N * fs * P < U64) :
    bw N fs P e = some (N * P * fs / (e * 1000).toNat) := by
  have hne : e ≠ 0 := ne_of_gt he
  obtain ⟨hval, hpos⟩ := toUInt64_of_pos (e * 1000) (by omega) hd
  have htot : total_bytes N fs P = N * P * fs := by
    unfold total_bytes
    rcases Nat.eq_zero_or_pos P with hP | hP
    · subst hP
      simp
    · have h1 : N * fs < U64 := lt_of_le_of_lt (Nat.le_mul_of_pos_right _ hP) hb
      rw [Nat.mod_eq_of_lt h1, Nat.mod_eq_of_lt hb]
      ring
  unfold bw
  rw [if_pos hne, if_neg (by omega), htot, hval]

/-- Witness of C9 (amended): 2 processes, 1 file per process of 1048576 bytes and a
write-only time of 1000 ms give (2 x 1 x 1048576) / 1000000, that is 2. -/
theorem bw_eq_quotient_witness :
    ((0 : Int) < 1000 ∧ (1000 : Int) * 1000 < 2 ^ 63 ∧ 1 * 1048576 * 2 < U64)
    ∧ bw 1 1048576 2 1000 = some (1 * 2 * 1048576 / ((1000 : Int) * 1000).toNat)
    ∧ 1 * 2 * 1048576 / ((1000 : Int) * 1000).toNat = 2 :=
  ⟨by decide, bw_eq_quotient 1 1048576 2 1000 (by decide) (by decide) (by decide),
   by decide⟩

/-! ## File names: auxiliary facts -/

theorem digitChar_value : ∀ k, k < 10 → (Nat.digitChar k).toNat - 48 = k := by decide

theorem digitChar_ne_dot : ∀ k, k < 10 → Nat.digitChar k ≠ '.' := by decide

theorem digitChar_ne_minus : ∀ k, k < 10 → Nat.digitChar k ≠ '-' := by decide

theorem foldl_toDigitsCore (fuel : Nat) :
    ∀ n ds, n < fuel →
      (Nat.toDigitsCore 10 fuel n ds).foldl (fun acc c => acc * 10 + (c.toNat - 48)) 0
        = ds.foldl (fun acc c => acc * 10 + (c.toNat - 48)) n := by
  induction fuel with
  | zero => intro n ds h; omega
  | succ fuel ih =>
    intro n ds h
    have hd := digitChar_value (n % 10) (Nat.mod_lt n (by decide))
    simp only [Nat.toDigitsCore]
    by_cases hq : n / 10 = 0
    · simp only [hq, if_true, List.foldl_cons, hd]
      have : n % 10 = n := by omega
      rw [this, Nat.zero_mul, Nat.zero_add]
    · simp only [hq, if_false]
      rw [ih (n / 10) _ (by omega)]
      simp only [List.foldl_cons, hd]
      have : n / 10 * 10 + n % 10 = n := by omega
      rw [this]

/-- Reading the output of `%lu` back in base 10 gives the number printed. -/
theorem decimal_value_fmt_lu (n : Nat) : decimal_value (fmt_lu n) = n := by
  unfold decimal_value fmt_lu Nat.toDigits
  rw [foldl_toDigitsCore (n + 1) n [] (Nat.lt_succ_self n)]
  rfl

theorem fmt_lu_injective (a b : Nat) (h : fmt_lu a = fmt_lu b) : a = b := by
  have := congrArg decimal_value h
  rwa [decimal_value_fmt_lu, decimal_value_fmt_lu] at this

theorem not_mem_toDigitsCore (c : Char) (hc : ∀ k, k < 10 → Nat.digitChar k ≠ c)
    (fuel : Nat) : ∀ n ds, c ∉ ds → c ∉ Nat.toDigitsCore 10 fuel n ds := by
  induction fuel with
  | zero => intro n ds h; simpa [Nat.toDigitsCore] using h
  | succ fuel ih =>
    intro n ds h
    have hd := hc (n % 10) (Nat.mod_lt n (by decide))
    have hcons : c ∉ Nat.digitChar (n % 10) :: ds := by
      intro hm
      rcases List.mem_cons.mp hm with h1 | h1
      · exact hd h1.symm
      · exact h h1
    simp only [Nat.toDigitsCore]
    by_cases hq : n / 10 = 0
    · simpa only [hq, if_true] using hcons
    · simp only [hq, if_false]
      exact ih _ _ hcons

theorem dot_not_mem_fmt_lu (n : Nat) : '.' ∉ fmt_lu n :=
  not_mem_toDigitsCore '.' digitChar_ne_dot _ _ _ (List.not_mem_nil _)

theorem minus_not_mem_fmt_lu (n : Nat) : '-' ∉ fmt_lu n :=
  not_mem_toDigitsCore '-' digitChar_ne_minus _ _ _ (List.not_mem_nil _)

theorem dot_not_mem_fmt_d (v : Int) : '.' ∉ fmt_d v := by
  cases v with
  | ofNat n => exact dot_not_mem_fmt_lu n
  | negSucc n =>
    intro hm
    rcases List.mem_cons.mp hm with h1 | h1
    · exact absurd h1 (by decide)
    · exact dot_not_mem_fmt_lu (n + 1) h1

theorem fmt_d_injective (v w : Int) (h : fmt_d v = fmt_d w) : v = w := by
  cases v with
  | ofNat n =>
    cases w with
    | ofNat m =>
      have : n = m := fmt_lu_injective n m h
      rw [this]
    | negSucc m =>
      exfalso
      have hm : '-' ∈ fmt_d (Int.negSucc m) := List.mem_cons_self _ _
      rw [← h] at hm
      exact minus_not_mem_fmt_lu n hm
  | negSucc n =>
    cases w with
    | ofNat m =>
      exfalso
      have hm : '-' ∈ fmt_d (Int.negSucc n) := List.mem_cons_self _ _
      rw [h] at hm
      exact minus_not_mem_fmt_lu m hm
    | negSucc m =>
      have h2 : fmt_lu (n + 1) = fmt_lu (m + 1) := List.tail_eq_of_cons_eq h
      have : n + 1 = m + 1 := fmt_lu_injective _ _ h2
      have : n = m := by omega
      rw [this]

theorem toInt32_injective (x y : Nat) (hx : x < 2 ^ 32) (hy : y < 2 ^ 32)
    (h : toInt32 x = toInt32 y) : x = y := by
  unfold toInt32 at h
  rw [Nat.mod_eq_of_lt hx, Nat.mod_eq_of_lt hy] at h
  split at h <;> split at h <;> omega

theorem toInt32_of_lt (x : Nat) (hx : x < 2 ^ 31) : toInt32 x = Int.ofNat x := by
  unfold toInt32
  have h1 : x % 2 ^ 32 = x := Nat.mod_eq_of_lt (by omega)
  rw [h1, if_pos hx]
  rfl

theorem split_at_dot (r1 : List Char) :
    ∀ (r2 i1 i2 : List Char), '.' ∉ r1 → '.' ∉ r2 →
      r1 ++ '.' :: i1 = r2 ++ '.' :: i2 → r1 = r2 ∧ i1 = i2 := by
  induction r1 with
  | nil =>
    intro r2 i1 i2 _ h2 h
    cases r2 with
    | nil => simpa using h
    | cons c rest =>
      exfalso
      simp only [List.nil_append, List.cons_append, List.cons.injEq] at h
      exact h2 (by rw [← h.1]; exact List.mem_cons_self _ _)
  | cons c rest ih =>
    intro r2 i1 i2 h1 h2 h
    cases r2 with
    | nil =>
      exfalso
      simp only [List.nil_append, List.cons_append, List.cons.injEq] at h
      exact h1 (by rw [h.1]; exact List.mem_cons_self _ _)
    | cons d rest2 =>
      simp only [List.cons_append, List.cons.injEq] at h
      have hr := ih rest2 i1 i2
        (fun hm => h1 (List.mem_cons_of_mem _ hm))
        (fun hm => h2 (List.mem_cons_of_mem _ hm)) h.2
      exact ⟨by rw [h.1, hr.1], hr.2⟩

theorem format_path_injective (dest : List Char) (ts r1 id1 r2 id2 : Nat)
    (hr1 : r1 < 2 ^ 32) (hr2 : r2 < 2 ^ 32)
    (h : format_path dest ts r1 id1 = format_path dest ts r2 id2) :
    r1 = r2 ∧ id1 = id2 := by
  unfold format_path at h
  simp only [List.append_assoc] at h
  have h1 := List.append_cancel_left h
  have h2 := List.append_cancel_left h1
  have h3 := List.append_cancel_left h2
  have h4 := List.append_cancel_left h3
  simp only [List.singleton_append] at h4
  have hs := split_at_dot _ _ _ _ (dot_not_mem_fmt_d _) (dot_not_mem_fmt_d _) h4
  exact ⟨toInt32_injective _ _ hr1 hr2 (fmt_d_injective _ _ hs.1),
    fmt_lu_injective _ _ hs.2⟩

theorem snprintf_path_of_fits (dest : List Char) (ts r id : Nat)
    (h : (format_path dest ts r id).length < PATH_MAX) :
    snprintf_path dest ts r id = format_path dest ts r id := by
  unfold snprintf_path
  exact List.take_of_length_le (by omega)

theorem snprintf_path_drops_rank (dest : List Char) (ts r id : Nat)
    (h : (dest ++ ['/', 't', 'e', 's', 't', '-'] ++ fmt_lu ts ++ ['-']).length
          = PATH_MAX - 1) :
    snprintf_path dest ts r id
      = dest ++ ['/', 't', 'e', 's', 't', '-'] ++ fmt_lu ts ++ ['-'] := by
  unfold snprintf_path format_path
  have : dest ++ ['/', 't', 'e', 's', 't', '-'] ++ fmt_lu ts ++ ['-']
            ++ fmt_d (toInt32 r) ++ ['.'] ++ fmt_lu id
        = (dest ++ ['/', 't', 'e', 's', 't', '-'] ++ fmt_lu ts ++ ['-'])
            ++ (fmt_d (toInt32 r) ++ ['.'] ++ fmt_lu id) := by
    simp only [List.append_assoc]
  rw [this]
  exact List.take_left' h

theorem long_dest_path_length :
    (long_dest_path ++ ['/', 't', 'e', 's', 't', '-'] ++ fmt_lu 1700000000 ++ ['-']).length
      = PATH_MAX - 1 := by
  have hrep : ∀ n : Nat, (List.replicate n ['/', 'd']).flatten.length = 2 * n := by
    intro n
    induction n with
    | zero => rfl
    | succ n ih =>
      rw [List.replicate_succ, List.flatten_cons, List.length_append, ih]
      simp only [List.length_cons, List.length_nil]
      omega
  have h1 : long_dest_path.length = 4078 := hrep 2039
  have h2 : (fmt_lu 1700000000).length = 10 := by decide
  simp only [List.length_append, h1, h2, List.length_cons, List.length_nil]
  rfl

/-! ## File names: claim -/

/-- C10 (the claim as stated fails): with a destination directory of 4078 characters
and run timestamp 1700000000, `snprintf` cuts the name after `test-1700000000-`, so
ranks 0 and 1 build the same path for file id 0 (and for every other id), and that
path is not `<dest_path>/test-<run_timestamp>-<rank>.<file_id>`. -/
theorem snprintf_path_truncated_collision :
    ((0, 0) : Nat × Nat) ≠ (1, 0)
    ∧ snprintf_path long_dest_path 1700000000 0 0
        = snprintf_path long_dest_path 1700000000 1 0
    ∧ snprintf_path long_dest_path 1700000000 0 0
        ≠ format_path long_dest_path 1700000000 0 0 := by
  refine ⟨by decide, ?_, ?_⟩
  · rw [snprintf_path_drops_rank _ _ 0 0 long_dest_path_length,
      snprintf_path_drops_rank _ _ 1 0 long_dest_path_length]
  · intro h
    have hlen := congrArg List.length h
    rw [snprintf_path_drops_rank _ _ 0 0 long_dest_path_length, long_dest_path_length]
      at hlen
    unfold format_path at hlen
    rw [List.length_append, List.length_append, List.length_append,
      long_dest_path_length] at hlen
    simp only [List.length_singleton] at hlen
    omega

/-- C10 (amended): whenever the formatted name
`<dest_path>/test-<run_timestamp>-<rank>.<file_id>` is shorter than PATH_MAX
characters, the i-th file `create_files` opens for a batch has that name as its path,
with the numbers in decimal (rank being an MPI rank, below 2^31); the path depends only
on the destination, the timestamp, the rank and the file id; and for any other pair
(rank, file id) whose name also fits, the two paths differ. -/
theorem create_files_path (g : Globals) (rank c first_id i r2 id2 : Nat)
    (hi : i < c) (hr : rank < 2 ^ 31) (hr2 : r2 < 2 ^ 31)
    (hl : (format_path g.dest_path g.timestamp rank ((first_id + i) % U64)).length
            < PATH_MAX)
    (hl2 : (format_path g.dest_path g.timestamp r2 id2).length < PATH_MAX) :
    (create_files g rank c first_id)[i]?
        = some (Event.fileOpen
            (snprintf_path g.dest_path g.timestamp rank ((first_id + i) % U64)) i)
    ∧ String.mk (snprintf_path g.dest_path g.timestamp rank ((first_id + i) % U64))
        = String.mk g.dest_path ++ "/test-" ++ toString g.timestamp ++ "-"
            ++ toString rank ++ "." ++ toString ((first_id + i) % U64)
    ∧ ((rank, (first_id + i) % U64) ≠ (r2, id2) →
        snprintf_path g.dest_path g.timestamp rank ((first_id + i) % U64)
          ≠ snprintf_path g.dest_path g.timestamp r2 id2) := by
  refine ⟨?_, ?_, ?_⟩
  · unfold create_files
    rw [List.getElem?_map, List.getElem?_range hi]
    rfl
  · rw [snprintf_path_of_fits _ _ _ _ hl]
    unfold format_path
    rw [toInt32_of_lt rank hr]
    apply String.ext
    simp [String.data_append, Nat.repr, List.asString, toString, fmt_lu, fmt_d]
  · intro hne heq
    rw [snprintf_path_of_fits _ _ _ _ hl, snprintf_path_of_fits _ _ _ _ hl2] at heq
    have := format_path_injective _ _ _ _ _ _ (by omega) (by omega) heq
    exact hne (by rw [this.1, this.2])

/-- Witness of C10 (amended): destination `/tmp/x`, timestamp 1700000000, rank 3, batch
of 2 files starting at id 16: the second file is opened at
`/tmp/x/test-1700000000-3.17`, which differs from the path of rank 4 for id 17. -/
theorem create_files_path_witness :
    (create_files
        ⟨['/', 't', 'm', 'p', '/', 'x'], 100, 16777216, 131072, 200, 1700000000⟩ 3 2 16)[1]?
        = some (Event.fileOpen
            (snprintf_path ['/', 't', 'm', 'p', '/', 'x'] 1700000000 3 ((16 + 1) % U64)) 1)
    ∧ String.mk (snprintf_path ['/', 't', 'm', 'p', '/', 'x'] 1700000000 3 ((16 + 1) % U64))
        = "/tmp/x/test-1700000000-3.17"
    ∧ snprintf_path ['/', 't', 'm', 'p', '/', 'x'] 1700000000 3 ((16 + 1) % U64)
        ≠ snprintf_path ['/', 't', 'm', 'p', '/', 'x'] 1700000000 4 17 :=
  have h := create_files_path
    ⟨['/', 't', 'm', 'p', '/', 'x'], 100, 16777216, 131072, 200, 1700000000⟩
    3 2 16 1 4 17 (by decide) (by decide) (by decide) (by decide) (by decide)
  ⟨h.1, h.2.1.trans (by decide), h.2.2 (by decide)⟩

/-! ## Batch planner: order of the batches when no first id wraps around -/

/-- When `max_open_files * (floor(N/M) + 1)` is below 2^64, every batch of `main` ends
at or below the first id of every later batch. -/
theorem main_batches_increasing (rank N M : Nat) (hM : 0 < M) (hN64 : N < U64)
    (hnw : M * (N / M + 1) < U64) :
    List.Pairwise (fun a b => a.1 + a.2 ≤ b.1) (main_batches rank N M) := by
  have hmul : ∀ i, i ≤ N / M + 1 → M * i % U64 = M * i := by
    intro i hi
    apply Nat.mod_eq_of_lt
    exact lt_of_le_of_lt (Nat.mul_le_mul_left M hi) hnw
  rw [main_batches_eq, List.pairwise_append]
  refine ⟨?_, ?_, ?_⟩
  · rw [List.pairwise_map]
    apply List.Pairwise.imp_of_mem _ (List.pairwise_lt_range (N / M))
    intro i j hi hj hij
    have hi2 := List.mem_range.mp hi
    have hj2 := List.mem_range.mp hj
    show M * i % U64 + M ≤ M * j % U64
    rw [hmul i (by omega), hmul j (by omega)]
    calc M * i + M = M * (i + 1) := by ring
      _ ≤ M * j := Nat.mul_le_mul_left M hij
  · by_cases hr : N % M = 0 <;> simp [hr]
  · intro a ha b hb
    by_cases hr : N % M = 0
    · simp [hr] at hb
    · simp only [ne_eq, hr, not_false_eq_true, if_true, List.mem_singleton] at hb
      obtain ⟨i, hi, rfl⟩ := List.mem_map.mp ha
      have hi2 := List.mem_range.mp hi
      subst hb
      show M * i % U64 + M ≤ M * nb_batches N M % U64
      have hnb : nb_batches N M = N / M + 1 := by
        rw [nb_batches_eq N M hM hN64]; simp [hr]
      rw [hnb, hmul i (by omega), hmul (N / M + 1) (le_refl _)]
      calc M * i + M = M * (i + 1) := by ring
        _ ≤ M * (N / M + 1) := Nat.mul_le_mul_left M (by omega)

/-! ## Write-only timer: auxiliary facts -/

theorem dropWhile_append_stop {α : Type} (p : α → Bool) (l1 : List α) (x : α)
    (l2 : List α) (h1 : ∀ e ∈ l1, p e = true) (hx : p x = false) :
    (l1 ++ x :: l2).dropWhile p = x :: l2 := by
  induction l1 with
  | nil => simp [List.dropWhile, hx]
  | cons a rest ih =>
    have ha : p a = true := h1 a (List.mem_cons_self _ _)
    simp only [List.cons_append, List.dropWhile, ha]
    exact ih (fun e he => h1 e (List.mem_cons_of_mem _ he))

theorem takeWhile_append_stop {α : Type} (p : α → Bool) (l1 : List α) (x : α)
    (l2 : List α) (h1 : ∀ e ∈ l1, p e = true) (hx : p x = false) :
    (l1 ++ x :: l2).takeWhile p = l1 := by
  induction l1 with
  | nil => simp [List.takeWhile, hx]
  | cons a rest ih =>
    have ha : p a = true := h1 a (List.mem_cons_self _ _)
    have hrest := ih (fun e he => h1 e (List.mem_cons_of_mem _ he))
    simp only [List.cons_append, List.takeWhile_cons, ha, if_true, hrest]

theorem start_batch_split (g : Globals) (rank c fid : Nat) :
    start_batch g rank c fid
      = (create_files g rank c fid ++ [Event.barrier])
        ++ Event.timerStart TimerId.timer_wo_open
        :: ((write_files g c ++ close_files c ++ [Event.barrier])
            ++ Event.timerStop TimerId.timer_wo_open :: []) := by
  simp [start_batch]

theorem before_timer_start_ne (g : Globals) (rank c fid : Nat) :
    ∀ e ∈ create_files g rank c fid ++ [Event.barrier],
      decide (e ≠ Event.timerStart TimerId.timer_wo_open) = true := by
  intro e he
  rcases List.mem_append.mp he with h | h
  · obtain ⟨p, f, rfl⟩ := create_files_opens g rank c fid e h
    exact decide_eq_true (fun hh => Event.noConfusion hh)
  · rw [List.mem_singleton.mp h]
    decide

theorem inside_timer_ne (g : Globals) (c : Nat) :
    ∀ e ∈ write_files g c ++ close_files c ++ [Event.barrier],
      decide (e ≠ Event.timerStop TimerId.timer_wo_open) = true := by
  intro e he
  rcases List.mem_append.mp he with h | h
  · rcases List.mem_append.mp h with h2 | h2
    · obtain ⟨f, off, n, rfl⟩ := write_files_writes_only g c e h2
      exact decide_eq_true (fun hh => Event.noConfusion hh)
    · obtain ⟨f, rfl⟩ := close_files_closes c e h2
      exact decide_eq_true (fun hh => Event.noConfusion hh)
  · rw [List.mem_singleton.mp h]
    decide

/-! ## Write-only timer: claim -/

/-- C11 (the claim as stated fails): in a batch of one file (file size 1000, block
size 300) the call `MPI_File_close` of handle 0 lies between the start and the stop of
the write-only timer. -/
theorem start_batch_close_inside_timer :
    Event.fileClose 0
      ∈ timed_segment (start_batch ⟨['d'], 2, 1000, 300, 1, 7⟩ 0 1 0) := by
  decide

/-- C11 (amended): in every batch, the calls `start_batch` issues between the start and
the stop of the write-only timer are exactly the block writes, then the file closes,
then one barrier; no file open occurs between them (all file opens of the batch come
before the timer start), while every file close of the batch does. -/
theorem start_batch_timed_segment (g : Globals) (rank c first_id : Nat) :
    timed_segment (start_batch g rank c first_id)
        = write_files g c ++ close_files c ++ [Event.barrier]
    ∧ before_timed_segment (start_batch g rank c first_id)
        = create_files g rank c first_id ++ [Event.barrier]
    ∧ (∀ e ∈ timed_segment (start_batch g rank c first_id),
        ∀ p f, e ≠ Event.fileOpen p f)
    ∧ (∀ f ∈ List.range c,
        Event.fileClose f ∈ timed_segment (start_batch g rank c first_id)) := by
  have hseg : timed_segment (start_batch g rank c first_id)
        = write_files g c ++ close_files c ++ [Event.barrier] := by
    unfold timed_segment
    rw [start_batch_split,
      dropWhile_append_stop _ _ _ _ (before_timer_start_ne g rank c first_id) (by decide),
      List.tail_cons,
      takeWhile_append_stop _ _ _ _ (inside_timer_ne g c) (by decide)]
  refine ⟨hseg, ?_, ?_, ?_⟩
  · unfold before_timed_segment
    rw [start_batch_split,
      takeWhile_append_stop _ _ _ _ (before_timer_start_ne g rank c first_id) (by decide)]
  · intro e he p f hpf
    rw [hseg] at he
    subst hpf
    rcases List.mem_append.mp he with h | h
    · rcases List.mem_append.mp h with h2 | h2
      · exact (write_files_neutral g c _ h2).1 p f rfl
      · obtain ⟨f2, hf2⟩ := close_files_closes c _ h2
        exact Event.noConfusion hf2
    · exact Event.noConfusion (List.mem_singleton.mp h)
  · intro f hf
    rw [hseg]
    apply List.mem_append_left
    apply List.mem_append_right
    unfold close_files
    exact List.mem_map.mpr ⟨f, hf, rfl⟩

/-! ## Timers: auxiliary facts -/

theorem wrapInt64_of_range (x : Int) (h1 : -2 ^ 63 ≤ x) (h2 : x < 2 ^ 63) :
    wrapInt64 x = x := by
  unfold wrapInt64
  rw [Int.emod_eq_of_lt (by omega) (by omega)]
  omega

theorem tdiv_1000_of_nonneg (d : Int) (h : 0 ≤ d) : Int.tdiv d 1000 = d / 1000 :=
  Int.tdiv_eq_ediv h (by norm_num)

theorem tdiv_1000_of_neg (d : Int) (h : d < 0) : Int.tdiv d 1000 = -((-d) / 1000) := by
  have h1 : Int.tdiv (-(-d)) 1000 = -(Int.tdiv (-d) 1000) := Int.neg_tdiv (-d) 1000
  rw [neg_neg] at h1
  rw [h1, tdiv_1000_of_nonneg (-d) (by omega)]

/-- The increment of `timer_stop` without wrap-around, for readings whose
microseconds are in range and whose seconds do not go back. -/
theorem timer_increment_eq (start stop : timeval)
    (hu1 : 0 ≤ start.tv_usec ∧ start.tv_usec < 1000000)
    (hu2 : 0 ≤ stop.tv_usec ∧ stop.tv_usec < 1000000)
    (hsec : start.tv_sec ≤ stop.tv_sec)
    (hmul : (stop.tv_sec - start.tv_sec) * 1000 + 999 < 2 ^ 63) :
    timer_increment start stop
      = (stop.tv_sec - start.tv_sec) * 1000
        + Int.tdiv (stop.tv_usec - start.tv_usec) 1000
    ∧ -999 ≤ Int.tdiv (stop.tv_usec - start.tv_usec) 1000
    ∧ Int.tdiv (stop.tv_usec - start.tv_usec) 1000 ≤ 999 := by
  have hb : -999 ≤ Int.tdiv (stop.tv_usec - start.tv_usec) 1000
      ∧ Int.tdiv (stop.tv_usec - start.tv_usec) 1000 ≤ 999 := by
    rcases lt_or_le (stop.tv_usec - start.tv_usec) 0 with hneg | hpos
    · rw [tdiv_1000_of_neg _ hneg]; omega
    · rw [tdiv_1000_of_nonneg _ hpos]; omega
  refine ⟨?_, hb.1, hb.2⟩
  unfold timer_increment
  rw [wrapInt64_of_range (stop.tv_sec - start.tv_sec) (by omega) (by omega),
    wrapInt64_of_range ((stop.tv_sec - start.tv_sec) * 1000) (by omega) (by omega),
    wrapInt64_of_range (stop.tv_usec - start.tv_usec) (by omega) (by omega),
    wrapInt64_of_range _ (by omega) (by omega)]

/-! ## Timers: claim on monotone accumulation -/

/-- C12 (the claim as stated fails): the accumulated value is a signed 64-bit number.
With start reading (0 s, 0 us) and stop reading (2^63 - 1 s, 0 us) the product by 1000
wraps around and `timer_stop` adds -1000 to a timer at 0; and a timer whose
accumulated value is 2^63 - 1 goes to -2^63 when one millisecond is added. -/
theorem timer_stop_wraps :
    timer_increment ⟨0, 0⟩ ⟨2 ^ 63 - 1, 0⟩ = -1000
    ∧ (timer_stop ⟨0, ⟨0, 0⟩⟩ ⟨2 ^ 63 - 1, 0⟩).elapsed = -1000
    ∧ timer_increment ⟨0, 0⟩ ⟨0, 1000⟩ = 1
    ∧ (timer_stop ⟨2 ^ 63 - 1, ⟨0, 0⟩⟩ ⟨0, 1000⟩).elapsed = -2 ^ 63 := by
  decide

/-- C12 (amended): for every timer state and every pair of clock readings
(seconds, microseconds with 0 <= microseconds < 1000000) in which the stop reading is
not earlier than the start reading, provided the interval in milliseconds and the new
accumulated value fit in a signed 64-bit number, `timer_stop` adds a non-negative
number of milliseconds to `elapsed`, so the accumulated value does not decrease. -/
theorem timer_stop_monotone (t : ptimer_t) (stop : timeval)
    (hu1 : 0 ≤ t.start.tv_usec ∧ t.start.tv_usec < 1000000)
    (hu2 : 0 ≤ stop.tv_usec ∧ stop.tv_usec < 1000000)
    (hle : t.start.tv_sec < stop.tv_sec
      ∨ (t.start.tv_sec = stop.tv_sec ∧ t.start.tv_usec ≤ stop.tv_usec))
    (hmul : (stop.tv_sec - t.start.tv_sec) * 1000 + 999 < 2 ^ 63)
    (hel : -2 ^ 63 ≤ t.elapsed)
    (hacc : t.elapsed + ((stop.tv_sec - t.start.tv_sec) * 1000 + 999) < 2 ^ 63) :
    0 ≤ timer_increment t.start stop
    ∧ (timer_stop t stop).elapsed = t.elapsed + timer_increment t.start stop
    ∧ t.elapsed ≤ (timer_stop t stop).elapsed := by
  have hsec : t.start.tv_sec ≤ stop.tv_sec := by
    rcases hle with h | h
    · exact le_of_lt h
    · exact le_of_eq h.1
  obtain ⟨hinc, hlo, hhi⟩ := timer_increment_eq t.start stop hu1 hu2 hsec hmul
  have hnonneg : 0 ≤ timer_increment t.start stop := by
    rw [hinc]
    rcases hle with h | h
    · omega
    · have hd : 0 ≤ stop.tv_usec - t.start.tv_usec := by omega
      have := Int.tdiv_nonneg hd (by norm_num : (0 : Int) ≤ 1000)
      omega
  have hstop : (timer_stop t stop).elapsed = t.elapsed + timer_increment t.start stop := by
    unfold timer_stop
    exact wrapInt64_of_range _ (by omega) (by omega)
  exact ⟨hnonneg, hstop, by omega⟩

/-- Witness of C12 (amended): a timer at 5 ms started at (1700000000 s, 999999 us) and
stopped at (1700000001 s, 0 us) goes to 6 ms. -/
theorem timer_stop_monotone_witness :
    timer_increment ⟨1700000000, 999999⟩ ⟨1700000001, 0⟩ = 1
    ∧ (timer_stop ⟨5, ⟨1700000000, 999999⟩⟩ ⟨1700000001, 0⟩).elapsed = 6
    ∧ 0 ≤ timer_increment ⟨1700000000, 999999⟩ ⟨1700000001, 0⟩
    ∧ (5 : Int) ≤ (timer_stop ⟨5, ⟨1700000000, 999999⟩⟩ ⟨1700000001, 0⟩).elapsed :=
  have h := timer_stop_monotone ⟨5, ⟨1700000000, 999999⟩⟩ ⟨1700000001, 0⟩
    (by decide) (by decide) (by decide) (by decide) (by decide) (by decide)
  ⟨by decide, by decide, h.1, h.2.2⟩

/-! ## Round-robin writer: buffer bounds -/

theorem toInt32_le (x : Nat) : toInt32 x ≤ (x : Int) := by
  unfold toInt32
  have h := Nat.mod_le x (2 ^ 32)
  split <;> omega

theorem round_robin_writes_in_buffer (fs bs count : Nat) :
    ∀ w ∈ round_robin_writes fs bs count, w.2.1 + w.2.2 ≤ fs := by
  intro w hw
  unfold round_robin_writes at hw
  have hq : fs / bs * bs ≤ fs := Nat.div_mul_le_self fs bs
  rcases List.mem_append.mp hw with h | h
  · obtain ⟨k, hk, hkw⟩ := List.mem_flatMap.mp h
    obtain ⟨f, _, rfl⟩ := List.mem_map.mp hkw
    have hk2 : k + 1 ≤ fs / bs := List.mem_range.mp hk
    have h1 : (k + 1) * bs ≤ fs / bs * bs := Nat.mul_le_mul_right bs hk2
    show k * bs + bs ≤ fs
    have h2 : (k + 1) * bs = k * bs + bs := Nat.succ_mul k bs
    omega
  · by_cases hr : fs % bs = 0
    · simp [hr] at h
    · simp only [ne_eq, hr, not_false_eq_true, if_true] at h
      obtain ⟨f, _, rfl⟩ := List.mem_map.mp h
      show fs / bs * bs + fs % bs ≤ fs
      have := Nat.div_add_mod fs bs
      rw [Nat.mul_comm] at this
      omega

/-- C14: for file_size > 0 and block_size > 0 (block_size may exceed file_size), the
writes `write_files` issues are the writes of the round-robin sequence with each 64-bit
length converted to the `int count` that `MPI_File_write` receives; for each of them
the buffer offset plus the 64-bit length passed is at most file_size, and so is the
offset plus the count received; hence every write of the trace has offset plus length
at most file_size. -/
theorem write_files_in_buffer (g : Globals) (count : Nat)
    (_hfs : 0 < g.file_size) (_hbs : 0 < g.block_size) (hfs64 : g.file_size < U64) :
    writes_of (write_files g count)
        = (round_robin_writes g.file_size g.block_size count).map received
    ∧ (∀ w ∈ round_robin_writes g.file_size g.block_size count,
        w.2.1 + w.2.2 ≤ g.file_size
        ∧ (w.2.1 : Int) + MPI_File_write_count w.2.2 ≤ (g.file_size : Int))
    ∧ (∀ w ∈ writes_of (write_files g count),
        (w.2.1 : Int) + w.2.2 ≤ (g.file_size : Int)) := by
  have hw := writes_of_write_files g count hfs64
  have hb : ∀ w ∈ round_robin_writes g.file_size g.block_size count,
      w.2.1 + w.2.2 ≤ g.file_size
      ∧ (w.2.1 : Int) + MPI_File_write_count w.2.2 ≤ (g.file_size : Int) := by
    intro w hmem
    have h := round_robin_writes_in_buffer _ _ _ w hmem
    refine ⟨h, ?_⟩
    have h2 := toInt32_le w.2.2
    unfold MPI_File_write_count
    omega
  refine ⟨hw, hb, ?_⟩
  intro w hmem
  rw [hw] at hmem
  obtain ⟨v, hv, rfl⟩ := List.mem_map.mp hmem
  exact (hb v hv).2

/-- Witness of C14 with block_size 300 above file_size 100: the only write to handle 0
starts at offset 0 and has length 100. -/
theorem write_files_in_buffer_witness :
    (0 < 100 ∧ 0 < 300 ∧ 100 < U64)
    ∧ writes_of (write_files ⟨[], 1, 100, 300, 1, 0⟩ 1) = [(0, 0, 100)]
    ∧ round_robin_writes 100 300 1 = [(0, 0, 100)]
    ∧ (0 + 100 ≤ 100 ∧ ((0 : Nat) : Int) + MPI_File_write_count 100 ≤ ((100 : Nat) : Int))
    ∧ ((0 : Nat) : Int) + (100 : Int) ≤ ((100 : Nat) : Int) :=
  have h := write_files_in_buffer ⟨[], 1, 100, 300, 1, 0⟩ 1
    (by decide) (by decide) (by decide)
  ⟨by decide, by decide, by decide, h.2.1 (0, 0, 100) (by decide),
   h.2.2 (0, 0, 100) (by decide)⟩

/-! ## Count handed to the write call -/

/-- C16 (the code departs from the claim): with block_size = file_size = 2^32 the
intended length of the one write per handle is 4294967296 and the count the call
`MPI_File_write` receives is 0; with block_size = file_size = 2^31 the intended length
is 2147483648 and the count received is -2147483648. -/
theorem write_files_count_narrowed :
    writes_of (write_files ⟨[], 1, 2 ^ 32, 2 ^ 32, 1, 0⟩ 1) = [(0, 0, 0)]
    ∧ round_robin_writes (2 ^ 32) (2 ^ 32) 1 = [(0, 0, 4294967296)]
    ∧ MPI_File_write_count 4294967296 = 0
    ∧ writes_of (write_files ⟨[], 1, 2 ^ 31, 2 ^ 31, 1, 0⟩ 1) = [(0, 0, -2147483648)]
    ∧ round_robin_writes (2 ^ 31) (2 ^ 31) 1 = [(0, 0, 2147483648)]
    ∧ MPI_File_write_count 2147483648 = -2147483648 := by
  decide

/-! ## Batch planner: disjoint, increasing id ranges -/

theorem main_batches_end_le (rank N M : Nat) (hM : 0 < M) (hNM : N + M < U64) :
    ∀ b ∈ main_batches rank N M, b.1 + b.2 ≤ U64 := by
  intro b hb
  rw [main_batches_eq] at hb
  have hq : M * (N / M) ≤ N := Nat.mul_div_le N M
  have hdm := Nat.div_add_mod N M
  have hlt := Nat.mod_lt N hM
  rcases List.mem_append.mp hb with h | h
  · obtain ⟨i, hi, rfl⟩ := List.mem_map.mp h
    have hi2 : i + 1 ≤ N / M := List.mem_range.mp hi
    have h1 : M * (i + 1) ≤ M * (N / M) := Nat.mul_le_mul_left M hi2
    have h2 : M * (i + 1) = M * i + M := Nat.mul_succ M i
    show M * i % U64 + M ≤ U64
    rw [Nat.mod_eq_of_lt (by omega)]
    omega
  · by_cases hr : N % M = 0
    · simp [hr] at h
    · simp only [ne_eq, hr, not_false_eq_true, if_true, List.mem_singleton] at h
      subst h
      have hnb : nb_batches N M = N / M + 1 := by
        rw [nb_batches_eq N M hM (by omega)]; simp [hr]
      have h2 : M * (N / M + 1) = M * (N / M) + M := Nat.mul_succ M (N / M)
      show M * nb_batches N M % U64 + N % M ≤ U64
      rw [hnb, Nat.mod_eq_of_lt (by omega)]
      omega

theorem batch_ids_mem (b : Nat × Nat) (hb : b.1 + b.2 ≤ U64) (x : Nat)
    (hx : x ∈ batch_ids b) : b.1 ≤ x ∧ x < b.1 + b.2 := by
  unfold batch_ids at hx
  obtain ⟨i, hi, rfl⟩ := List.mem_map.mp hx
  have hi2 := List.mem_range.mp hi
  rw [Nat.mod_eq_of_lt (by omega)]
  omega

theorem batch_ids_nodup (b : Nat × Nat) (hb : b.1 + b.2 ≤ U64) : (batch_ids b).Nodup := by
  unfold batch_ids
  apply List.Nodup.map_on _ (List.nodup_range b.2)
  intro i hi j hj hij
  have hi2 := List.mem_range.mp hi
  have hj2 := List.mem_range.mp hj
  rw [Nat.mod_eq_of_lt (by omega), Nat.mod_eq_of_lt (by omega)] at hij
  omega

theorem main_batches_order (rank N M : Nat) (hM : 0 < M) (hNM : N + M < U64) :
    List.Pairwise (fun a b => a.1 + a.2 ≤ b.1) (main_batches rank N M) := by
  apply main_batches_increasing rank N M hM (by omega)
  have hq : M * (N / M) ≤ N := Nat.mul_div_le N M
  have h2 : M * (N / M + 1) = M * (N / M) + M := Nat.mul_succ M (N / M)
  omega

theorem main_batches_ids_order (rank N M : Nat) (hM : 0 < M) (hNM : N + M < U64) :
    List.Pairwise (fun a b => ∀ x ∈ batch_ids a, ∀ y ∈ batch_ids b, x < y)
      (main_batches rank N M) := by
  have hend := main_batches_end_le rank N M hM hNM
  apply List.Pairwise.imp_of_mem _ (main_batches_order rank N M hM hNM)
  intro a b ha hb hab x hx y hy
  have h1 := batch_ids_mem a (hend a ha) x hx
  have h2 := batch_ids_mem b (hend b hb) y hy
  omega

/-- When `nb_files + max_open_files` is below 2^64, a complete run opens pairwise
distinct file ids. -/
theorem main_file_ids_nodup (rank N M : Nat) (hM : 0 < M) (hNM : N + M < U64) :
    (main_file_ids rank N M).Nodup := by
  have hend := main_batches_end_le rank N M hM hNM
  unfold main_file_ids
  rw [List.nodup_flatMap]
  refine ⟨fun b hb => batch_ids_nodup b (hend b hb), ?_⟩
  apply List.Pairwise.imp_of_mem _ (main_batches_ids_order rank N M hM hNM)
  intro a b _ _ hab x hxa hxb
  exact absurd (hab x hxa x hxb) (lt_irrefl x)

/-- C6: for N > 0 and M > 0, both below 2^63 (the positive values of the type `long`
that `atol` returns), the file-id ranges [first_id, first_id + count) of the batches
`main` runs appear in increasing order and are pairwise disjoint: every batch ends at
or below the first id of every later batch, no range wraps around 2^64 (so the ids
`create_files` opens for a batch are exactly the ids of its range), every id of a
later batch is greater than every id of an earlier batch, and no file id is opened
twice. -/
theorem main_batches_disjoint_increasing (rank N M : Nat)
    (_hN : 0 < N) (hM : 0 < M) (hN63 : N < 2 ^ 63) (hM63 : M < 2 ^ 63) :
    List.Pairwise (fun a b => a.1 + a.2 ≤ b.1) (main_batches rank N M)
    ∧ (∀ b ∈ main_batches rank N M,
        b.1 + b.2 ≤ U64 ∧ ∀ x ∈ batch_ids b, b.1 ≤ x ∧ x < b.1 + b.2)
    ∧ List.Pairwise (fun a b => ∀ x ∈ batch_ids a, ∀ y ∈ batch_ids b, x < y)
        (main_batches rank N M)
    ∧ (main_file_ids rank N M).Nodup := by
  have hNM : N + M < U64 := by
    have : U64 = 2 ^ 63 + 2 ^ 63 := by decide
    omega
  have hend := main_batches_end_le rank N M hM hNM
  exact ⟨main_batches_order rank N M hM hNM,
    fun b hb => ⟨hend b hb, fun x hx => batch_ids_mem b (hend b hb) x hx⟩,
    main_batches_ids_order rank N M hM hNM,
    main_file_ids_nodup rank N M hM hNM⟩

/-- Witness of C6 at N = 5, M = 2: the ranges of the batches (first id 0, count 2),
(2, 2), (6, 1) are in increasing order and the ids 0, 1, 2, 3, 6 are distinct. -/
theorem main_batches_disjoint_increasing_witness :
    (0 < 5 ∧ 0 < 2 ∧ 5 < 2 ^ 63 ∧ 2 < 2 ^ 63)
    ∧ main_batches 0 5 2 = [(0, 2), (2, 2), (6, 1)]
    ∧ List.Pairwise (fun a b => a.1 + a.2 ≤ b.1) (main_batches 0 5 2)
    ∧ main_file_ids 0 5 2 = [0, 1, 2, 3, 6]
    ∧ (main_file_ids 0 5 2).Nodup :=
  have h := main_batches_disjoint_increasing 0 5 2
    (by decide) (by decide) (by decide) (by decide)
  ⟨by decide, by decide, h.1, by decide, h.2.2.2⟩

/-! ## Complete run of one process -/

theorem run_file_lengths_ids (g : Globals) (rank : Nat) :
    (run_file_lengths g rank).map Prod.fst
      = main_file_ids rank g.nb_files g.max_open_files := by
  unfold run_file_lengths main_file_ids batch_ids
  rw [List.map_flatMap]
  congr 1
  funext b
  rw [List.map_map]
  rfl

/-- The number of files a run opens is the sum of the batch sizes, `nb_files`. -/
theorem main_file_ids_length (rank N M : Nat) :
    (main_file_ids rank N M).length = N := by
  unfold main_file_ids
  rw [main_batches_eq, List.flatMap_append, List.length_append]
  have h1 : ∀ l : List Nat,
      ((l.map (fun i => ((M * i) % U64, M))).flatMap batch_ids).length = l.length * M := by
    intro l
    induction l with
    | nil => simp
    | cons i rest ih =>
      simp only [List.map_cons, List.flatMap_cons, List.length_append, ih,
        List.length_cons, batch_ids, List.length_map, List.length_range]
      ring
  rw [h1, List.length_range]
  have hdm := Nat.div_add_mod N M
  by_cases hr : N % M = 0
  · simp only [hr, ne_eq, not_true_eq_false, if_false, List.flatMap_nil, List.length_nil]
    rw [Nat.mul_comm]; omega
  · simp only [ne_eq, hr, not_false_eq_true, if_true, List.flatMap_cons,
      List.flatMap_nil, List.append_nil, batch_ids, List.length_map, List.length_range]
    rw [Nat.mul_comm]; omega

/-- When block_size is below 2^31, every file opened in a complete run receives writes
whose lengths sum to `file_size`. -/
theorem run_file_lengths_sums (g : Globals) (rank : Nat)
    (hbs : 0 < g.block_size) (hbs31 : g.block_size < 2 ^ 31) (hfs64 : g.file_size < U64) :
    ∀ e ∈ run_file_lengths g rank, e.2.sum = (g.file_size : Int) := by
  intro e he
  unfold run_file_lengths at he
  obtain ⟨b, _, hb⟩ := List.mem_flatMap.mp he
  obtain ⟨f, hf, rfl⟩ := List.mem_map.mp hb
  exact (write_files_lengths_small g b.2 f hbs hbs31 hfs64 (List.mem_range.mp hf)).2

/-- The example of the specification: N = 4, M = 2, file_size = 1000, block_size =
300 gives 2 batches of 2 files, and each of the files 0, 1, 2, 3 receives three writes
of 300 bytes and one of 100 bytes. -/
theorem run_file_lengths_example :
    main_batches 0 4 2 = [(0, 2), (2, 2)]
    ∧ run_file_lengths ⟨['d'], 4, 1000, 300, 2, 7⟩ 0
        = [(0, [300, 300, 300, 100]), (1, [300, 300, 300, 100]),
           (2, [300, 300, 300, 100]), (3, [300, 300, 300, 100])] := by
  decide

/-- C13 (the code departs from the claim): a complete run with N = 4, M = 2 and
file_size = block_size = 2^32 has 2 batches of 2 files and opens the 4 distinct ids
0, 1, 2, 3, but the one write issued to each file hands the count 0 to
`MPI_File_write`: the lengths issued to each file sum to 0, not to file_size, and the
run writes nothing instead of 4 x 4294967296 bytes. -/
theorem run_file_lengths_narrowed :
    main_batches 0 4 2 = [(0, 2), (2, 2)]
    ∧ run_file_lengths ⟨['d'], 4, 2 ^ 32, 2 ^ 32, 2, 7⟩ 0
        = [(0, [0]), (1, [0]), (2, [0]), (3, [0])]
    ∧ (∀ e ∈ run_file_lengths ⟨['d'], 4, 2 ^ 32, 2 ^ 32, 2, 7⟩ 0,
        e.2.sum = 0 ∧ e.2.sum ≠ ((2 ^ 32 : Nat) : Int))
    ∧ ((run_file_lengths ⟨['d'], 4, 2 ^ 32, 2 ^ 32, 2, 7⟩ 0).map
        (fun e => e.2.sum)).sum = 0 := by
  decide

/-! ## Reported open overhead -/

/-- C15 (the code departs from the claim): a run of two batches (N = 2, M = 1) whose six
clock readings are (1700000000 s, 1900 us), (1700000000, 2000), (1700000001, 1001),
(1700000001, 1101), (1700000002, 102), (1700000002, 202), in increasing order, each
write-only interval inside the run interval. The two write-only increments are 1000
and 1000 ms, the run increment is 1999 ms: `timer.elapsed` is 1999,
`timer_wo_open.elapsed` is 2000, the difference is -1 and the line `Open time` prints
18446744073709551615. -/
theorem open_time_negative :
    (not_earlier (sample_clock 0) (sample_clock 1) = true
      ∧ not_earlier (sample_clock 1) (sample_clock 2) = true
      ∧ not_earlier (sample_clock 2) (sample_clock 3) = true
      ∧ not_earlier (sample_clock 3) (sample_clock 4) = true
      ∧ not_earlier (sample_clock 4) (sample_clock 5) = true)
    ∧ timer_increment (sample_clock 1) (sample_clock 2) = 1000
    ∧ timer_increment (sample_clock 3) (sample_clock 4) = 1000
    ∧ timer_increment (sample_clock 0) (sample_clock 5) = 1999
    ∧ (run_timers sample_clock (main_trace ⟨['d'], 2, 1000, 300, 1, 7⟩ 0) 0
        Timers.zero).timer.elapsed = 1999
    ∧ (run_timers sample_clock (main_trace ⟨['d'], 2, 1000, 300, 1, 7⟩ 0) 0
        Timers.zero).timer_wo_open.elapsed = 2000
    ∧ open_time (run_timers sample_clock (main_trace ⟨['d'], 2, 1000, 300, 1, 7⟩ 0) 0
        Timers.zero) = 18446744073709551615 := by
  decide

/-- Between valid readings in time order, 1000 times the increment of `timer_stop`
differs from the interval in microseconds by less than 1000. -/
theorem timer_increment_micros (a b : timeval) (ha : valid_reading a)
    (hb : valid_reading b) (hab : micros a ≤ micros b) :
    1000 * timer_increment a b ≤ micros b - micros a + 999
    ∧ micros b - micros a - 999 ≤ 1000 * timer_increment a b := by
  obtain ⟨ha1, ha2, ha3, ha4⟩ := ha
  obtain ⟨hb1, hb2, hb3, hb4⟩ := hb
  unfold micros at hab ⊢
  have hsec : a.tv_sec ≤ b.tv_sec := by omega
  obtain ⟨hinc, _, _⟩ := timer_increment_eq a b ⟨ha1, ha2⟩ ⟨hb1, hb2⟩ hsec (by omega)
  rw [hinc]
  rcases lt_or_le (b.tv_usec - a.tv_usec) 0 with hneg | hpos
  · rw [tdiv_1000_of_neg _ hneg]; omega
  · rw [tdiv_1000_of_nonneg _ hpos]; omega

theorem nested_sum_micros (l : List (timeval × timeval)) :
    ∀ (A B : timeval), nested A l B →
      (∀ p ∈ l, valid_reading p.1 ∧ valid_reading p.2) →
      1000 * (l.map (fun p => timer_increment p.1 p.2)).sum
        ≤ micros B - micros A + 999 * (l.length : Int) := by
  induction l with
  | nil =>
    intro A B h _
    simp only [nested] at h
    simp only [List.map_nil, List.sum_nil, List.length_nil]
    omega
  | cons p rest ih =>
    intro A B h hv
    obtain ⟨h1, h2, h3⟩ := h
    have hp := hv p (List.mem_cons_self _ _)
    have hrest := ih p.2 B h3 (fun q hq => hv q (List.mem_cons_of_mem _ hq))
    have hinc := (timer_increment_micros p.1 p.2 hp.1 hp.2 h2).1
    simp only [List.map_cons, List.sum_cons, List.length_cons]
    push_cast
    omega

/-- The write-only increments of a run exceed the run increment by at most the number
of batches: for valid readings in time order, the sum of the increments of the
write-only intervals is at most the increment of the run interval plus the number of
intervals. -/
theorem write_only_sum_le (A B : timeval) (l : List (timeval × timeval))
    (hA : valid_reading A) (hB : valid_reading B)
    (hv : ∀ p ∈ l, valid_reading p.1 ∧ valid_reading p.2) (hn : nested A l B) :
    (l.map (fun p => timer_increment p.1 p.2)).sum
      ≤ timer_increment A B + (l.length : Int) := by
  have hAB : micros A ≤ micros B := by
    clear hA hB
    induction l generalizing A with
    | nil => exact hn
    | cons p rest ih =>
      obtain ⟨h1, h2, h3⟩ := hn
      have := ih p.2 (fun q hq => hv q (List.mem_cons_of_mem _ hq)) h3
      omega
  have h1 := nested_sum_micros l A B hn hv
  have h2 := (timer_increment_micros A B hA hB hAB).2
  omega

end FsFrag
